import Mathlib

/-!
Verification development for the JobCrawler repository.

The Python sources (Crawler.py, Mailer.py, import_json.py) are shallowly
embedded below: pure functions become Lean functions, the sqlite store
becomes an explicit record of rows, and the mailer run becomes a state
transformer parameterised by the per-contact delivery outcomes.  Machine
strings are modelled as Lean strings, with Python string primitives
(lower, strip, substring containment, slicing) re-implemented on the
underlying character lists so that all definitions are executable and
provable.  The tldextract library used by Crawler.extract_domain is
modelled from its documented lenient URL parsing (scheme stripping,
netloc isolation, longest public-suffix match over a representative
finite suffix table).
-/

/-! ## Character and string helpers (models of Python primitives) -/

/-- Model of ASCII lowercasing as performed by Python str.lower on the
alphabets that occur in this code base. -/
def lowerChar (c : Char) : Char :=
  if 65 ≤ c.toNat ∧ c.toNat ≤ 90 then Char.ofNat (c.toNat + 32) else c

/-- Model of Python str.lower. -/
def strLower (s : String) : String :=
  ⟨s.data.map lowerChar⟩

/-- Whitespace trimming on character lists (Python str.strip). -/
def trimWs (l : List Char) : List Char :=
  ((l.dropWhile Char.isWhitespace).reverse.dropWhile Char.isWhitespace).reverse

/-- Model of Python str.strip. -/
def strTrim (s : String) : String :=
  ⟨trimWs s.data⟩

/-- Model of Python string slicing s[:n] (by characters). -/
def strTake (s : String) (n : Nat) : String :=
  ⟨s.data.take n⟩

/-- Whether the second list occurs at the head of the first. -/
def startsWithL : List Char → List Char → Bool
  | _, [] => true
  | [], _ :: _ => false
  | h :: hs, n :: ns => h = n && startsWithL hs ns

/-- Whether the needle occurs anywhere inside the haystack
(model of the Python substring test k in s). -/
def hasSub : List Char → List Char → Bool
  | hay, needle =>
    if startsWithL hay needle then true
    else
      match hay with
      | [] => false
      | _ :: t => hasSub t needle

/-- Model of the Python substring test k in s on strings. -/
def strContains (s k : String) : Bool :=
  hasSub s.data k.data

/-- Lexicographic comparison of character lists by code point, the order
Python uses to compare strings. -/
def charsLeB : List Char → List Char → Bool
  | [], _ => true
  | _ :: _, [] => false
  | a :: as, b :: bs =>
    if a.toNat < b.toNat then true
    else if a.toNat = b.toNat then charsLeB as bs
    else false

/-! ## Contact classifier (Crawler.py, classify_contact) -/

/-- DECISION_MAKER_KEYWORDS from Crawler.py. -/
def DECISION_MAKER_KEYWORDS : List String :=
  ["ceo", "cfo", "cto", "coo", "cmo", "chief", "president", "founder", "owner",
   "director", "vp", "vice president", "head of", "manager", "lead", "executive",
   "decision", "strategic", "business", "operations", "product", "sales", "marketing",
   "revenue", "growth", "strategy"]

/-- HR_KEYWORDS from Crawler.py. -/
def HR_KEYWORDS : List String :=
  ["hr", "human resources", "recruiting", "talent", "people", "careers", "jobs",
   "hiring", "director"]

/-- ENG_KEYWORDS from Crawler.py. -/
def ENG_KEYWORDS : List String :=
  ["engineering", "engineer", "eng", "dev", "developer"]

/-- A raw email record from the lookup API response, as consumed by
classify_contact; absent or null JSON fields are None. -/
structure RawEmail where
  value : Option String
  first_name : Option String
  last_name : Option String
  position : Option String
  department : Option String
  etype : Option String
  confidence : Option Int
deriving DecidableEq, Repr

/-- Model of Crawler.classify_contact: priority 0 decision maker,
1 HR, 2 engineering, 3 generic, 4 other. -/
def classify_contact (e : RawEmail) : Nat :=
  let email := strLower (e.value.getD "")
  let dept := strLower (e.department.getD "")
  let etype := strLower (e.etype.getD "")
  let first_name := strLower (e.first_name.getD "")
  let last_name := strLower (e.last_name.getD "")
  let full_name := strLower (first_name ++ " " ++ last_name)
  let position := strLower (e.position.getD "")
  let all_text := email ++ " " ++ dept ++ " " ++ full_name ++ " " ++ position
  if DECISION_MAKER_KEYWORDS.any (fun k => strContains all_text k) then 0
  else if HR_KEYWORDS.any (fun k => strContains dept k)
       || HR_KEYWORDS.any (fun k => strContains email k) then 1
  else if ENG_KEYWORDS.any (fun k => strContains dept k)
       || ENG_KEYWORDS.any (fun k => strContains email k) then 2
  else if etype = "generic" then 3
  else 4

/-- The email local part: everything before the first at sign. -/
def localPart (s : String) : String :=
  ⟨s.data.takeWhile (fun c => c ≠ '@')⟩

/-- Classifier as the claim words it: keyword matching over the email
LOCAL PART only (the domain part of the address never participates),
department, full name and position. -/
def classifySpecLocal (e : RawEmail) : Nat :=
  let email := strLower (localPart (e.value.getD ""))
  let dept := strLower (e.department.getD "")
  let etype := strLower (e.etype.getD "")
  let full_name :=
    strLower ((e.first_name.getD "") ++ " " ++ (e.last_name.getD ""))
  let position := strLower (e.position.getD "")
  let all_text := email ++ " " ++ dept ++ " " ++ full_name ++ " " ++ position
  if DECISION_MAKER_KEYWORDS.any (fun k => strContains all_text k) then 0
  else if HR_KEYWORDS.any (fun k => strContains dept k)
       || HR_KEYWORDS.any (fun k => strContains email k) then 1
  else if ENG_KEYWORDS.any (fun k => strContains dept k)
       || ENG_KEYWORDS.any (fun k => strContains email k) then 2
  else if etype = "generic" then 3
  else 4

/-- Classifier as amended: the lowercase concatenation of the FULL email
address (local part and domain part), department, full name and position;
the HR and engineering tiers test the department or the full address. -/
def classifySpecFull (e : RawEmail) : Nat :=
  let email := strLower (e.value.getD "")
  let dept := strLower (e.department.getD "")
  let etype := strLower (e.etype.getD "")
  let all_text :=
    strLower ((e.value.getD "") ++ " " ++ (e.department.getD "") ++ " "
      ++ (e.first_name.getD "") ++ " " ++ (e.last_name.getD "") ++ " "
      ++ (e.position.getD ""))
  if DECISION_MAKER_KEYWORDS.any (fun k => strContains all_text k) then 0
  else if HR_KEYWORDS.any (fun k => strContains dept k)
       || HR_KEYWORDS.any (fun k => strContains email k) then 1
  else if ENG_KEYWORDS.any (fun k => strContains dept k)
       || ENG_KEYWORDS.any (fun k => strContains email k) then 2
  else if etype = "generic" then 3
  else 4

/-! ## Ranked extraction (Crawler.py, extract_ranked_contacts) -/

/-- One entry of the ranked contact list produced by
extract_ranked_contacts. -/
structure RankedContact where
  email : String
  name : String
  position : String
  confidence : Option Int
  etype : String
  department : String
  priority : Nat
  is_decision_maker : Bool
deriving DecidableEq, Repr

/-- The data object of a lookup API response. -/
structure HunterData where
  organization : Option String
  emails : List RawEmail
deriving DecidableEq, Repr

/-- A lookup API response; a falsy data member is None. -/
structure HunterResponse where
  data : Option HunterData
deriving DecidableEq, Repr

/-- The Python sort key for the ranked list:
(priority, -(confidence or 0), email.lower()), compared lexicographically;
a null confidence counts as 0. -/
def rankedLe (a b : RankedContact) : Prop :=
  a.priority < b.priority ∨
    (a.priority = b.priority ∧
      (-(a.confidence.getD 0) < -(b.confidence.getD 0) ∨
        (-(a.confidence.getD 0) = -(b.confidence.getD 0) ∧
          charsLeB (a.email.data.map lowerChar) (b.email.data.map lowerChar) = true)))

instance : DecidableRel rankedLe := by
  intro a b
  unfold rankedLe
  infer_instance

/-- Builds the ranked entry for one raw record, or none when the record
is skipped (blank email, or priority above 3). -/
def rankedEntry (e : RawEmail) : Option RankedContact :=
  let email_val := strTrim (e.value.getD "")
  if email_val = "" then none
  else
    let priority := classify_contact e
    if 3 < priority then none
    else
      let name0 := strTrim (strTrim (e.first_name.getD "") ++ " " ++ strTrim (e.last_name.getD ""))
      let name := if name0 = "" then "N/A" else name0
      let t := e.etype.getD ""
      some
        { email := email_val
          name := name
          position := strTrim (e.position.getD "")
          confidence := e.confidence
          etype := if t = "" then "unknown" else strLower t
          department := strTrim (e.department.getD "")
          priority := priority
          is_decision_maker := priority = 0 }

/-- Model of Crawler.extract_ranked_contacts: the resolved organization
name plus the filtered, ranked list (the append-in-a-loop of the source
is the filterMap of rankedEntry, and Python list.sort with the key above
is a stable sort, modelled by insertion sort with rankedLe). -/
def extract_ranked_contacts (resp : HunterResponse) (domain : String) :
    String × List RankedContact :=
  let data := resp.data.getD ⟨none, []⟩
  let organization :=
    match data.organization with
    | some o => if o = "" then domain else o
    | none => domain
  (organization, List.insertionSort rankedLe (data.emails.filterMap rankedEntry))

/-! ## Relational store (Crawler.py init_db; rows of the two tables) -/

/-- A row of the companies table. -/
structure Company where
  id : Nat
  domain : String
  organization : Option String
  category : Option String
deriving DecidableEq, Repr

/-- A row of the contacts table; contacted is the tri-state status
(0 pending, 1 sent, -1 failed). -/
structure Contact where
  id : Nat
  company_id : Option Nat
  email : String
  name : Option String
  confidence : Option Int
  etype : Option String
  contacted : Int
  contacted_at : Option String
  last_error : Option String
  retry_count : Int
deriving DecidableEq, Repr

/-- The sqlite store: the two tables plus the next rowids. -/
structure DB where
  companies : List Company
  contacts : List Contact
  nextCompanyId : Nat
  nextContactId : Nat
deriving DecidableEq, Repr

/-- The freshly initialised store (init_db on a new file). -/
def initDb : DB :=
  ⟨[], [], 1, 1⟩

/-! ## Send queue selection (Mailer.py, fetch_send_queue) -/

/-- First component of the sqlite ORDER BY key: confidence DESC puts
null confidence after every non-null value (NULLS LAST). -/
def fetchKeyNull (c : Contact) : Nat :=
  match c.confidence with
  | some _ => 0
  | none => 1

/-- Second component of the sqlite ORDER BY key: descending confidence,
realised as ascending negated confidence. -/
def fetchKeyConf (c : Contact) : Int :=
  match c.confidence with
  | some v => -v
  | none => 0

/-- The total order realising ORDER BY confidence DESC NULLS LAST, id ASC. -/
def rowLe (a b : Contact) : Prop :=
  fetchKeyNull a < fetchKeyNull b ∨
    (fetchKeyNull a = fetchKeyNull b ∧
      (fetchKeyConf a < fetchKeyConf b ∨
        (fetchKeyConf a = fetchKeyConf b ∧ a.id ≤ b.id)))

instance : DecidableRel rowLe := by
  intro a b
  unfold rowLe
  infer_instance

instance : IsTotal Contact rowLe := by
  constructor
  intro a b
  unfold rowLe
  omega

instance : IsTrans Contact rowLe := by
  constructor
  intro a b c
  unfold rowLe
  omega

/-- Model of Mailer.fetch_send_queue: the rows with contacted = 0,
ordered by confidence DESC NULLS LAST then id ASC, capped at limit.
The LEFT JOIN to companies only decorates the rows with display data
(COALESCE placeholders) and does not change which contacts appear,
so the model returns the contact rows themselves. -/
def fetch_send_queue (db : DB) (limit : Nat) : List Contact :=
  (List.insertionSort rowLe (db.contacts.filter (fun c => c.contacted = 0))).take limit

/-! ## Status transitions (Mailer.py, mark_sent and dismiss_failed) -/

/-- Model of Mailer.mark_sent: UPDATE contacts SET contacted = 1,
contacted_at = now, last_error = NULL WHERE id = cid. -/
def mark_sent (db : DB) (cid : Nat) (now : String) : DB :=
  { db with
    contacts := db.contacts.map (fun c =>
      if c.id = cid then
        { c with contacted := 1, contacted_at := some now, last_error := none }
      else c) }

/-- Model of Mailer.dismiss_failed: UPDATE contacts SET contacted = -1,
contacted_at = now, last_error = (err or "")[:500] WHERE id = cid. -/
def dismiss_failed (db : DB) (cid : Nat) (err : String) (now : String) : DB :=
  { db with
    contacts := db.contacts.map (fun c =>
      if c.id = cid then
        { c with contacted := -1, contacted_at := some now,
                 last_error := some (strTake err 500) }
      else c) }

/-! ## The send-queue run (Mailer.py, run_mailer) -/

/-- Outcome of the transport setup sequence of run_mailer: the smtplib
constructor opens the connection; STARTTLS and login happen after it,
outside any try/finally. -/
inductive SetupResult where
  | ok
  | connectFail (e : String)
  | starttlsFail (e : String)
  | loginFail (e : String)
deriving DecidableEq, Repr

/-- Environment of one run_mailer invocation (the module-level
configuration plus how the transport behaves). -/
structure MailerEnv where
  dryRun : Bool
  resumeExists : Bool
  smtpHostSet : Bool
  fromEmailSet : Bool
  setup : SetupResult
deriving DecidableEq, Repr

/-- Observable result of one run_mailer invocation: the store afterwards,
whether a transport connection was opened, whether quit was called on it,
the uncaught exception if any, and the sent and failed counters. -/
structure RunResult where
  db : DB
  opened : Bool
  quitCalled : Bool
  err : Option String
  sent : Nat
  failed : Nat
deriving Repr

/-- One iteration of the delivery loop on the non-dry path: a successful
send marks the contact sent, an exception e marks it failed with the
truncated error; either way the update is applied (committed) before the
next contact is taken. -/
def processContact (outcome : Nat → Option String) (now : String)
    (acc : DB × Nat × Nat) (c : Contact) : DB × Nat × Nat :=
  match outcome c.id with
  | none => (mark_sent acc.1 c.id now, acc.2.1 + 1, acc.2.2)
  | some e => (dismiss_failed acc.1 c.id e now, acc.2.1, acc.2.2 + 1)

/-- Model of Mailer.run_mailer.  Control flow follows the source: the
pending-count guard of check_and_import_json_if_empty, the resume guard,
the fetch, the empty-batch guard, the dry-run branch (no connection, the
loop still books every contact as sent), the SMTP_HOST and FROM_EMAIL
guards, the setup sequence (connect, then STARTTLS and login outside the
try/finally), the per-contact loop inside try, and the finally clause
that quits the session only when the loop was reached with a live
server object. -/
def run_mailer (db : DB) (env : MailerEnv) (limit : Nat)
    (outcome : Nat → Option String) (now : String) : RunResult :=
  if (db.contacts.filter (fun c => c.contacted = 0)).length = 0 then
    ⟨db, false, false, none, 0, 0⟩
  else if env.resumeExists = false then
    ⟨db, false, false, some "Resume not found", 0, 0⟩
  else
    let rows := fetch_send_queue db limit
    if rows.length = 0 then
      ⟨db, false, false, none, 0, 0⟩
    else if env.dryRun then
      let r := rows.foldl (processContact (fun _ => none) now) (db, 0, 0)
      ⟨r.1, false, false, none, r.2.1, r.2.2⟩
    else if env.smtpHostSet = false then
      ⟨db, false, false, some "Missing SMTP_HOST env var", 0, 0⟩
    else if env.fromEmailSet = false then
      ⟨db, false, false, some "Missing FROM_EMAIL env var", 0, 0⟩
    else
      match env.setup with
      | SetupResult.connectFail e => ⟨db, false, false, some e, 0, 0⟩
      | SetupResult.starttlsFail e => ⟨db, true, false, some e, 0, 0⟩
      | SetupResult.loginFail e => ⟨db, true, false, some e, 0, 0⟩
      | SetupResult.ok =>
        let r := rows.foldl (processContact outcome now) (db, 0, 0)
        ⟨r.1, true, true, none, r.2.1, r.2.2⟩

/-- One scheduled run: its environment, batch limit, delivery outcomes
and timestamp. -/
structure RunSpec where
  env : MailerEnv
  limit : Nat
  outcome : Nat → Option String
  now : String

/-- Executes a sequence of send-queue runs against the store. -/
def applyRuns (db : DB) : List RunSpec → DB
  | [] => db
  | r :: rs => applyRuns (run_mailer db r.env r.limit r.outcome r.now).db rs

/-! ## JSON import (Crawler.py, import_json_contacts) -/

/-- One contact object of the batch import format. -/
structure JsonContact where
  email : Option String
  name : Option String
  confidence : Option Int
  etype : Option String
deriving DecidableEq, Repr

/-- One company object of the batch import format. -/
structure JsonItem where
  domain : Option String
  organization : Option String
  company : Option String
  contacts : List JsonContact
deriving DecidableEq, Repr

/-- Python x or y on optional strings: an absent or empty value falls
through to the default. -/
def firstNonEmpty (o : Option String) (d : String) : String :=
  match o with
  | some s => if s = "" then d else s
  | none => d

/-- INSERT OR IGNORE INTO companies (domain, organization, category):
a no-op when a row with this domain already exists. -/
def insertCompanyIgnore (db : DB) (domain org cat : String) : DB :=
  if db.companies.any (fun co => co.domain = domain) then db
  else
    { db with
      companies := db.companies ++ [⟨db.nextCompanyId, domain, some org, some cat⟩],
      nextCompanyId := db.nextCompanyId + 1 }

/-- SELECT id FROM companies WHERE domain = ? (first matching row). -/
def findCompanyId (companies : List Company) (domain : String) : Option Nat :=
  (companies.find? (fun co => co.domain = domain)).map (fun co => co.id)

/-- INSERT OR IGNORE INTO contacts (company_id, email, ...): a no-op when
a row with this (company_id, email) pair already exists. -/
def insertContactIgnore (db : DB) (cid : Nat) (c : JsonContact) (email : String) : DB :=
  if db.contacts.any (fun ct => ct.company_id = some cid && ct.email = email) then db
  else
    { db with
      contacts := db.contacts ++
        [⟨db.nextContactId, some cid, email, c.name, c.confidence, c.etype, 0, none, none, 0⟩],
      nextContactId := db.nextContactId + 1 }

/-- One step of the contact loop of import_json_contacts: skip blank
emails, insert-or-ignore everything else. -/
def contactStep (cid : Nat) (d : DB) (c : JsonContact) : DB :=
  let email := strTrim (c.email.getD "")
  if email = "" then d
  else insertContactIgnore d cid c email

/-- Import of one JSON company object, as in import_json_contacts:
skip blank domains, insert-or-ignore the company, look its id up, then
insert-or-ignore each contact with a non-blank email. -/
def importItem (db : DB) (item : JsonItem) : DB :=
  let domain := strTrim (item.domain.getD "")
  if domain = "" then db
  else
    let org := firstNonEmpty item.organization (firstNonEmpty item.company domain)
    let db1 := insertCompanyIgnore db domain org "engineering"
    match findCompanyId db1.companies domain with
    | none => db1
    | some cid => item.contacts.foldl (contactStep cid) db1

/-- Model of Crawler.import_json_contacts over a parsed JSON array. -/
def import_json_contacts (db : DB) (data : List JsonItem) : DB :=
  data.foldl importItem db

/-! ## Domain normalizer (Crawler.py extract_domain, over a model of the
tldextract library it delegates to) -/

/-- Scheme characters as accepted by the tldextract scheme stripper
(urllib scheme_chars: letters, digits, plus, minus, dot). -/
def isSchemeChar (c : Char) : Bool :=
  c.isAlpha || c.isDigit || c = '+' || c = '-' || c = '.'

/-- Index of the first occurrence of two consecutive slashes. -/
def firstDoubleSlash : List Char → Option Nat
  | [] => none
  | c :: rest =>
    if c = '/' && rest.head? = some '/' then some 0
    else (firstDoubleSlash rest).map (fun n => n + 1)

/-- tldextract scheme stripping: drop a leading scheme://, where the
text before the first // must be scheme characters ending in a colon;
otherwise the url is returned unchanged. -/
def schemelessUrl (l : List Char) : List Char :=
  match firstDoubleSlash l with
  | none => l
  | some p =>
    if p = 0 then l.drop 2
    else if 2 ≤ p ∧ l.get? (p - 1) = some ':' ∧ (l.take (p - 1)).all isSchemeChar then
      l.drop (p + 2)
    else l

/-- Python partition(sep)[0]: everything before the first separator. -/
def takeUntil (c : Char) (l : List Char) : List Char :=
  l.takeWhile (fun x => x ≠ c)

/-- Python rpartition(at)[-1]: everything after the last at sign, the
whole string when there is none. -/
def afterLastAt (l : List Char) : List Char :=
  (l.reverse.takeWhile (fun x => x ≠ '@')).reverse

/-- Python rstrip of dots. -/
def rstripDots (l : List Char) : List Char :=
  (l.reverse.dropWhile (fun x => x = '.')).reverse

/-- tldextract lenient netloc isolation followed by hostname cleanup and
lowercasing: cut at the first slash, question mark and hash, keep what
follows the last at sign, cut at the first colon, strip whitespace,
strip trailing dots, lowercase.  (The IPv6 bracket special case and the
non-ASCII dot aliases are not exercised by this code base.) -/
def hostOf (l : List Char) : List Char :=
  (rstripDots (trimWs (takeUntil ':'
    (afterLastAt (takeUntil '#' (takeUntil '?' (takeUntil '/' (schemelessUrl l)))))))).map lowerChar

/-- Python str.split on dots (never returns an empty list). -/
def splitOnDot : List Char → List (List Char)
  | [] => [[]]
  | c :: t =>
    if c = '.' then [] :: splitOnDot t
    else
      match splitOnDot t with
      | [] => [[c]]
      | p :: ps => (c :: p) :: ps

/-- Dot-joining, the inverse of splitOnDot. -/
def joinDots : List (List Char) → List Char
  | [] => []
  | [p] => p
  | p :: ps => p ++ '.' :: joinDots ps

/-- A representative finite excerpt of the public suffix list used by
tldextract (plain rules; enough to cover the domains of this project). -/
def pslChars : List (List Char) :=
  ["com", "org", "net", "edu", "gov", "io", "ai", "dev", "co",
   "uk", "co.uk", "org.uk", "de", "fr", "jp", "us"].map String.data

/-- Number of leading labels that are not part of the public suffix:
the suffix is the longest dot-joined tail of the labels that is a
public-suffix rule (tldextract suffix search). -/
def suffixIndex : List (List Char) → Nat
  | [] => 0
  | l :: t =>
    if pslChars.contains (joinDots (l :: t)) then 0
    else suffixIndex t + 1

/-- tldextract extraction on the split host plus the registrable-domain
assembly of Crawler.extract_domain: requires a non-empty suffix and a
non-empty domain label, and returns domain.suffix. -/
def assembleDomain (labels : List (List Char)) : Option (List Char) :=
  let i := suffixIndex labels
  if i = 0 then none
  else if labels.length ≤ i then none
  else
    match labels.get? (i - 1) with
    | none => none
    | some dom =>
      if dom = [] then none
      else some (dom ++ '.' :: joinDots (labels.drop i))

/-- Model of Crawler.extract_domain: prepend https:// unless the string
starts with the lowercase literal http:// or https://, run the
tldextract pipeline, and fail with the wrapped ValueError when no
registrable domain and suffix can be determined. -/
def extract_domain (url : String) : Except String String :=
  let u :=
    if startsWithL url.data "http://".data || startsWithL url.data "https://".data then
      url.data
    else "https://".data ++ url.data
  match assembleDomain (splitOnDot (hostOf u)) with
  | none => Except.error ("Error extracting domain from " ++ url)
  | some d => Except.ok ⟨d⟩

/-! ## Concrete fixtures used by the counterexamples and witnesses -/

/-- A pending contact row used by the fixtures. -/
def mkPending (cid : Nat) (email : String) (conf : Option Int) : Contact :=
  ⟨cid, some 1, email, none, conf, none, 0, none, none, 0⟩

/-- Store with two pending contacts that tie on every sort key of the
specification rule except the email, and whose id order disagrees with
the email order. -/
def exDbTie : DB :=
  ⟨[⟨1, "x.com", none, none⟩],
   [mkPending 1 "b@x.com" (some 50), mkPending 2 "a@x.com" (some 50)],
   2, 3⟩

/-- Environment whose transport setup fails during STARTTLS, after the
connection was opened. -/
def envStarttlsFail : MailerEnv :=
  ⟨false, true, true, true, SetupResult.starttlsFail "STARTTLS failed"⟩

/-- Environment for a dry run. -/
def envDry : MailerEnv :=
  ⟨true, true, true, true, SetupResult.ok⟩

/-- Environment for a normal run whose setup succeeds. -/
def envOk : MailerEnv :=
  ⟨false, true, true, true, SetupResult.ok⟩

/-- A raw record whose only HR keyword (talent) occurs in the domain
part of the address; every other field is null except a personal type. -/
def exDomainKeyword : RawEmail :=
  ⟨some "team@mytalent.com", none, none, none, none, some "personal", none⟩

/-! ## Auxiliary definitions used by the proofs -/

/-- The delivery loop restricted to its effect on the store. -/
def stepDb (outcome : Nat → Option String) (now : String) (d : DB) (c : Contact) : DB :=
  match outcome c.id with
  | none => mark_sent d c.id now
  | some e => dismiss_failed d c.id e now

/-- The effect of processing the queue row r on an arbitrary contact row. -/
def updOf (outcome : Nat → Option String) (now : String) (r : Contact) (c : Contact) : Contact :=
  match outcome r.id with
  | none =>
    if c.id = r.id then
      { c with contacted := 1, contacted_at := some now, last_error := none }
    else c
  | some e =>
    if c.id = r.id then
      { c with contacted := -1, contacted_at := some now, last_error := some (strTake e 500) }
    else c

/-- The accumulated effect of the whole delivery loop on one contact row. -/
def chainUpd (outcome : Nat → Option String) (now : String)
    (rows : List Contact) (c : Contact) : Contact :=
  rows.foldl (fun x r => updOf outcome now r x) c

/-- An import item is settled in a store when its company row is resolvable
and every one of its non-blank contacts is already present under that
company: precisely the situation in which importItem is a no-op. -/
def itemSettled (db : DB) (item : JsonItem) : Prop :=
  strTrim (item.domain.getD "") = "" ∨
    ∃ cid, findCompanyId db.companies (strTrim (item.domain.getD "")) = some cid ∧
      ∀ c ∈ item.contacts, strTrim (c.email.getD "") = "" ∨
        ∃ ct ∈ db.contacts, ct.company_id = some cid ∧ ct.email = strTrim (c.email.getD "")

/-- A lookup response with one generic record, used as a witness input. -/
def exRespGeneric : HunterResponse :=
  ⟨some ⟨some "Org", [⟨some " gen@x.com ", none, none, none, none, some "generic", none⟩]⟩⟩

/-- A record with every field absent, the fully degenerate input. -/
def exAllNone : RawEmail :=
  ⟨none, none, none, none, none, none, none⟩

/-! ## General helper lemmas -/

theorem lowerChar_idem (c : Char) : lowerChar (lowerChar c) = lowerChar c := by
  by_cases h : 65 ≤ c.toNat ∧ c.toNat ≤ 90
  · have h1 : lowerChar c = Char.ofNat (c.toNat + 32) := by simp [lowerChar, h]
    rw [h1]
    obtain ⟨ha, hb⟩ := h
    generalize c.toNat = m at ha hb
    interval_cases m <;> decide
  · have h1 : lowerChar c = c := by simp [lowerChar, h]
    rw [h1, h1]

theorem strLower_data (s : String) : (strLower s).data = s.data.map lowerChar := rfl

theorem strLower_append (a b : String) :
    strLower (a ++ b) = strLower a ++ strLower b := by
  apply String.ext
  rw [String.data_append]
  rw [strLower_data, String.data_append, strLower_data, strLower_data, List.map_append]

theorem strLower_idem (s : String) : strLower (strLower s) = strLower s := by
  apply String.ext
  show (s.data.map lowerChar).map lowerChar = s.data.map lowerChar
  rw [List.map_map]
  exact List.map_congr_left (fun c _ => lowerChar_idem c)

theorem charsLeB_total (a b : List Char) :
    charsLeB a b = true ∨ charsLeB b a = true := by
  induction a generalizing b with
  | nil => left; rfl
  | cons x xs ih =>
    cases b with
    | nil => right; rfl
    | cons y ys =>
      simp only [charsLeB]
      rcases Nat.lt_trichotomy x.toNat y.toNat with h | h | h
      · left
        rw [if_pos h]
      · have hxy : ¬ x.toNat < y.toNat := by omega
        have hyx : ¬ y.toNat < x.toNat := by omega
        rw [if_neg hxy, if_pos h, if_neg hyx, if_pos h.symm]
        exact ih ys
      · right
        rw [if_pos h]

theorem charsLeB_trans (a b c : List Char) (hab : charsLeB a b = true)
    (hbc : charsLeB b c = true) : charsLeB a c = true := by
  induction a generalizing b c with
  | nil => rfl
  | cons x xs ih =>
    cases b with
    | nil => simp [charsLeB] at hab
    | cons y ys =>
      cases c with
      | nil => simp [charsLeB] at hbc
      | cons z zs =>
        simp only [charsLeB] at hab hbc ⊢
        split_ifs at hab hbc ⊢ with h1 h2 h3 h4 h5 h6 <;>
          first
            | rfl
            | omega
            | (exact ih ys zs hab hbc)

instance : IsTotal RankedContact rankedLe := by
  constructor
  intro a b
  unfold rankedLe
  rcases Nat.lt_trichotomy a.priority b.priority with h | h | h
  · exact Or.inl (Or.inl h)
  · rcases Int.lt_trichotomy (-(a.confidence.getD 0)) (-(b.confidence.getD 0)) with h2 | h2 | h2
    · exact Or.inl (Or.inr ⟨h, Or.inl h2⟩)
    · rcases charsLeB_total (a.email.data.map lowerChar) (b.email.data.map lowerChar) with h3 | h3
      · exact Or.inl (Or.inr ⟨h, Or.inr ⟨h2, h3⟩⟩)
      · exact Or.inr (Or.inr ⟨h.symm, Or.inr ⟨h2.symm, h3⟩⟩)
    · exact Or.inr (Or.inr ⟨h.symm, Or.inl h2⟩)
  · exact Or.inr (Or.inl h)

instance : IsTrans RankedContact rankedLe := by
  constructor
  intro a b c hab hbc
  unfold rankedLe at hab hbc ⊢
  rcases hab with h1 | ⟨h1, h2⟩
  · rcases hbc with g1 | ⟨g1, _⟩
    · exact Or.inl (by omega)
    · exact Or.inl (by omega)
  · rcases hbc with g1 | ⟨g1, g2⟩
    · exact Or.inl (by omega)
    · refine Or.inr ⟨h1.trans g1, ?_⟩
      rcases h2 with h2 | ⟨h2, h3⟩
      · rcases g2 with g2 | ⟨g2, _⟩
        · exact Or.inl (by omega)
        · exact Or.inl (by omega)
      · rcases g2 with g2 | ⟨g2, g3⟩
        · exact Or.inl (by omega)
        · exact Or.inr ⟨h2.trans g2, charsLeB_trans _ _ _ h3 g3⟩

theorem fetch_mem {db : DB} {limit : Nat} {c : Contact}
    (h : c ∈ fetch_send_queue db limit) : c ∈ db.contacts ∧ c.contacted = 0 := by
  unfold fetch_send_queue at h
  have h1 : c ∈ List.insertionSort rowLe (db.contacts.filter (fun c => c.contacted = 0)) :=
    (List.take_sublist _ _).subset h
  have h2 : c ∈ db.contacts.filter (fun c => c.contacted = 0) :=
    (List.perm_insertionSort rowLe _).subset h1
  have h3 := List.mem_filter.mp h2
  refine ⟨h3.1, ?_⟩
  simpa using h3.2

theorem fetch_ids_nodup {db : DB} (h : (db.contacts.map (fun c => c.id)).Nodup)
    (limit : Nat) : ((fetch_send_queue db limit).map (fun c => c.id)).Nodup := by
  unfold fetch_send_queue
  have h1 : ((db.contacts.filter (fun c => c.contacted = 0)).map (fun c => c.id)).Nodup :=
    List.Nodup.sublist (List.Sublist.map _ (List.filter_sublist _)) h
  have h2 :=
    ((List.perm_insertionSort rowLe (db.contacts.filter (fun c => c.contacted = 0))).map
      (fun c => c.id)).nodup_iff.mpr h1
  exact List.Nodup.sublist (List.Sublist.map _ (List.take_sublist _ _)) h2

/-! ## Claim C1 -/

/-- C1 counterexample: in a store with two pending contacts that agree on
every classification-relevant field and on confidence, and whose id order
is opposite to their email order, fetch_send_queue returns the emails in
descending order (id ASC tie-break), while the claimed section-3 rule
(priority, then confidence, then ascending email) requires ascending email
order; so fetch_pending does not order by the claimed rule. -/
theorem claim_C1_counterexample :
    (fetch_send_queue exDbTie 2).map (fun c => c.email) = ["b@x.com", "a@x.com"] ∧
    ¬ List.Pairwise (fun a b : Contact => charsLeB a.email.data b.email.data = true)
      (fetch_send_queue exDbTie 2) := by
  refine ⟨by rfl, by decide⟩

/-- C1 (amended): for every limit, fetch_send_queue returns only contacts
with contacted = 0, ordered by descending confidence with null confidence
last and remaining ties broken by ascending contact id (not by priority or
email), capped at limit rows. -/
theorem claim_C1_fetch_pending_amended (db : DB) (limit : Nat) :
    (∀ c ∈ fetch_send_queue db limit, c.contacted = 0) ∧
    (fetch_send_queue db limit).length ≤ limit ∧
    List.Pairwise rowLe (fetch_send_queue db limit) ∧
    ∃ full, full.Perm (db.contacts.filter (fun c => c.contacted = 0)) ∧
      List.Pairwise rowLe full ∧ fetch_send_queue db limit = full.take limit := by
  refine ⟨fun c hc => (fetch_mem hc).2, ?_, ?_, ?_⟩
  · unfold fetch_send_queue
    rw [List.length_take]
    exact inf_le_left
  · exact List.Pairwise.sublist (List.take_sublist _ _)
      (List.sorted_insertionSort rowLe _)
  · exact ⟨_, List.perm_insertionSort rowLe _, List.sorted_insertionSort rowLe _, rfl⟩

/-! ## Claim C4 -/

/-- C4 counterexample: with one pending contact and a transport whose
STARTTLS step fails, the run opens the connection but never calls quit on
it, because the try/finally of run_mailer begins only after the whole
setup sequence; so the session is not released on every exit path on
which it was opened. -/
theorem claim_C4_counterexample :
    (run_mailer exDbTie envStarttlsFail 5 (fun _ => none) "t").opened = true ∧
    (run_mailer exDbTie envStarttlsFail 5 (fun _ => none) "t").quitCalled = false := by
  decide

/-- C4 (amended): the transport session is released exactly on the paths
where it was opened and no uncaught error escaped the run, i.e. on normal
completion of the delivery loop; an uncaught setup error (STARTTLS or
authentication failure) occurs after the connection is opened but before
the try/finally, so the session is not quit on that path. -/
theorem claim_C4_quit_amended (db : DB) (env : MailerEnv) (limit : Nat)
    (outcome : Nat → Option String) (now : String) :
    (run_mailer db env limit outcome now).quitCalled =
      ((run_mailer db env limit outcome now).opened &&
        (run_mailer db env limit outcome now).err.isNone) := by
  unfold run_mailer
  dsimp only
  repeat' split
  all_goals rfl

/-! ## Claim C5 -/

theorem code_text_eq (v d f l p : String) :
    strLower v ++ " " ++ strLower d ++ " " ++
        strLower (strLower f ++ " " ++ strLower l) ++ " " ++ strLower p =
      strLower (v ++ " " ++ d ++ " " ++ f ++ " " ++ l ++ " " ++ p) := by
  have hcomp : lowerChar ∘ lowerChar = lowerChar := funext lowerChar_idem
  have hsp : (" " : String).data.map lowerChar = (" " : String).data := by decide
  apply String.ext
  simp only [String.data_append, strLower_data, List.map_append, List.map_map,
    List.append_assoc, hcomp, hsp]

/-- C5 counterexample: the record with address team@mytalent.com and no
other populated field is classified priority 1 (HR) by the code, because
the keyword talent occurs in the DOMAIN part of the address, while the
claimed local-part-only matching would classify it priority 4; so keywords
occurring only in the domain part do affect classification. -/
theorem claim_C5_counterexample :
    classify_contact exDomainKeyword = 1 ∧ classifySpecLocal exDomainKeyword = 4 ∧
    classify_contact exDomainKeyword ≠ classifySpecLocal exDomainKeyword := by
  refine ⟨by rfl, by rfl, by decide⟩

/-- C5 (amended): for every raw record, the keyword matching of the
classifier operates on the lowercase concatenation of the FULL email
address (local part and domain part), department, full name and position
(and for the HR and engineering tiers on the department or the full
address), so keywords occurring only in the domain part of the address do
affect classification. -/
theorem claim_C5_classifier_amended (e : RawEmail) :
    classify_contact e = classifySpecFull e := by
  simp only [classify_contact, classifySpecFull, code_text_eq]

/-! ## Claim C10 -/

theorem classify_contact_le (e : RawEmail) : classify_contact e ≤ 4 := by
  simp only [classify_contact]
  repeat' split
  all_goals omega

theorem rankedEntry_eq_some {e : RawEmail} {rc : RankedContact}
    (h : rankedEntry e = some rc) :
    rc.email = strTrim (e.value.getD "") ∧ strTrim (e.value.getD "") ≠ "" ∧
    rc.confidence = e.confidence ∧ rc.priority = classify_contact e ∧
    classify_contact e ≤ 3 := by
  unfold rankedEntry at h
  by_cases h1 : strTrim (e.value.getD "") = ""
  · simp [h1] at h
  · by_cases h2 : 3 < classify_contact e
    · simp [h1, h2] at h
    · simp only [h1, h2, if_false, ite_false, Option.some.injEq] at h
      subst h
      exact ⟨rfl, h1, rfl, rfl, by omega⟩

theorem extract_ranked_eq (resp : HunterResponse) (domain : String) :
    (extract_ranked_contacts resp domain).2 =
      List.insertionSort rankedLe
        ((resp.data.getD ⟨none, []⟩).emails.filterMap rankedEntry) := rfl

/-- C10: the classifier and extractor are total on degenerate input: any
record with missing fields still classifies to a priority of at most 4;
the ranked output is sorted by the key that treats a null confidence as
0; no emitted entry has a blank email; and every record whose stripped
email is non-blank and whose priority is at most 3 is emitted with its
original confidence and computed priority, so only blank-email records
are skipped before classification. -/
theorem claim_C10_degenerate_safety :
    (∀ e : RawEmail, classify_contact e ≤ 4) ∧
    (∀ resp domain, List.Pairwise rankedLe (extract_ranked_contacts resp domain).2) ∧
    (∀ resp domain rc, rc ∈ (extract_ranked_contacts resp domain).2 → rc.email ≠ "") ∧
    (∀ resp domain (e : RawEmail), e ∈ (resp.data.getD ⟨none, []⟩).emails →
      strTrim (e.value.getD "") ≠ "" → classify_contact e ≤ 3 →
      ∃ rc ∈ (extract_ranked_contacts resp domain).2,
        rc.email = strTrim (e.value.getD "") ∧ rc.confidence = e.confidence ∧
        rc.priority = classify_contact e) := by
  refine ⟨classify_contact_le, ?_, ?_, ?_⟩
  · intro resp domain
    rw [extract_ranked_eq]
    exact List.sorted_insertionSort _ _
  · intro resp domain rc hrc
    rw [extract_ranked_eq] at hrc
    have h1 : rc ∈ (resp.data.getD ⟨none, []⟩).emails.filterMap rankedEntry :=
      (List.perm_insertionSort rankedLe _).subset hrc
    obtain ⟨e, _, hsome⟩ := List.mem_filterMap.mp h1
    obtain ⟨hemail, hne, _⟩ := rankedEntry_eq_some hsome
    rw [hemail]
    exact hne
  · intro resp domain e he hblank hle
    have h0 : ∃ rc0, rankedEntry e = some rc0 := by
      unfold rankedEntry
      rw [if_neg hblank]
      rw [if_neg (by omega : ¬ 3 < classify_contact e)]
      exact ⟨_, rfl⟩
    obtain ⟨rc0, h0⟩ := h0
    refine ⟨rc0, ?_, ?_⟩
    · rw [extract_ranked_eq]
      exact (List.perm_insertionSort rankedLe _).mem_iff.mpr
        (List.mem_filterMap.mpr ⟨e, he, h0⟩)
    · obtain ⟨hemail, _, hconf, hprio, _⟩ := rankedEntry_eq_some h0
      exact ⟨hemail, hconf, hprio⟩

/-- C10 witness: the fully degenerate record classifies to 4, and a
generic record with a padded address and no other fields is emitted with
its stripped email. -/
theorem claim_C10_witness :
    classify_contact exAllNone ≤ 4 ∧
    (strTrim ((⟨some " gen@x.com ", none, none, none, none, some "generic", none⟩ :
        RawEmail).value.getD "") ≠ "" ∧
      ∃ rc ∈ (extract_ranked_contacts exRespGeneric "x.com").2,
        rc.email = strTrim ((⟨some " gen@x.com ", none, none, none, none, some "generic",
          none⟩ : RawEmail).value.getD "") ∧
        rc.confidence = (⟨some " gen@x.com ", none, none, none, none, some "generic",
          none⟩ : RawEmail).confidence ∧
        rc.priority = classify_contact ⟨some " gen@x.com ", none, none, none, none,
          some "generic", none⟩) := by
  refine ⟨claim_C10_degenerate_safety.1 exAllNone, by decide, ?_⟩
  exact claim_C10_degenerate_safety.2.2.2 exRespGeneric "x.com"
    ⟨some " gen@x.com ", none, none, none, none, some "generic", none⟩
    (by decide) (by decide) (by decide)

/-! ## Delivery loop lemmas -/

theorem processContact_fst (outcome : Nat → Option String) (now : String) :
    ∀ (rows : List Contact) (d : DB) (s f : Nat),
      (rows.foldl (processContact outcome now) (d, s, f)).1 =
        rows.foldl (stepDb outcome now) d := by
  intro rows
  induction rows with
  | nil => intro d s f; rfl
  | cons c cs ih =>
    intro d s f
    rw [List.foldl_cons, List.foldl_cons]
    cases h : outcome c.id with
    | none =>
      simp only [processContact, stepDb, h]
      exact ih _ _ _
    | some e =>
      simp only [processContact, stepDb, h]
      exact ih _ _ _

theorem processContact_counts (outcome : Nat → Option String) (now : String) :
    ∀ (rows : List Contact) (d : DB) (s f : Nat),
      (rows.foldl (processContact outcome now) (d, s, f)).2.1 +
        (rows.foldl (processContact outcome now) (d, s, f)).2.2 = s + f + rows.length := by
  intro rows
  induction rows with
  | nil => intro d s f; rfl
  | cons c cs ih =>
    intro d s f
    rw [List.foldl_cons]
    cases h : outcome c.id with
    | none =>
      simp only [processContact, h]
      rw [ih]
      simp only [List.length_cons]
      omega
    | some e =>
      simp only [processContact, h]
      rw [ih]
      simp only [List.length_cons]
      omega

theorem stepDb_contacts (outcome : Nat → Option String) (now : String) (d : DB) (c : Contact) :
    (stepDb outcome now d c).contacts = d.contacts.map (updOf outcome now c) := by
  cases h : outcome c.id <;> simp [stepDb, mark_sent, dismiss_failed, updOf, h]

theorem loop_contacts (outcome : Nat → Option String) (now : String) :
    ∀ (rows : List Contact) (d : DB),
      (rows.foldl (stepDb outcome now) d).contacts =
        d.contacts.map (chainUpd outcome now rows) := by
  intro rows
  induction rows with
  | nil =>
    intro d
    exact (List.map_id d.contacts).symm
  | cons r rs ih =>
    intro d
    rw [List.foldl_cons, ih, stepDb_contacts, List.map_map]
    rfl

theorem updOf_id (outcome : Nat → Option String) (now : String) (r c : Contact) :
    (updOf outcome now r c).id = c.id := by
  cases h : outcome r.id <;>
    (simp only [updOf, h]; split <;> rfl)

theorem chainUpd_id (outcome : Nat → Option String) (now : String) :
    ∀ (rows : List Contact) (c : Contact),
      (chainUpd outcome now rows c).id = c.id := by
  intro rows
  induction rows with
  | nil => intro c; rfl
  | cons r rs ih =>
    intro c
    show (chainUpd outcome now rs (updOf outcome now r c)).id = c.id
    rw [ih, updOf_id]

theorem chainUpd_not_mem (outcome : Nat → Option String) (now : String) :
    ∀ (rows : List Contact) (c : Contact),
      c.id ∉ rows.map (fun r => r.id) → chainUpd outcome now rows c = c := by
  intro rows
  induction rows with
  | nil => intro c _; rfl
  | cons r rs ih =>
    intro c hn
    rw [List.map_cons] at hn
    have hne : c.id ≠ r.id := by
      intro h
      exact hn (by rw [h]; exact List.mem_cons_self _ _)
    have hnt : c.id ∉ rs.map (fun r => r.id) := fun h => hn (List.mem_cons_of_mem _ h)
    have h1 : updOf outcome now r c = c := by
      cases h : outcome r.id <;> simp [updOf, h, hne]
    show chainUpd outcome now rs (updOf outcome now r c) = c
    rw [h1]
    exact ih c hnt

theorem chainUpd_cases (outcome : Nat → Option String) (now : String) :
    ∀ (rows : List Contact) (c : Contact),
      chainUpd outcome now rows c = c ∨
        (c.id ∈ rows.map (fun r => r.id) ∧
          ((chainUpd outcome now rows c).contacted = 1 ∨
            (chainUpd outcome now rows c).contacted = -1)) := by
  intro rows
  induction rows with
  | nil => intro c; exact Or.inl rfl
  | cons r rs ih =>
    intro c
    have hstep : chainUpd outcome now (r :: rs) c =
        chainUpd outcome now rs (updOf outcome now r c) := rfl
    by_cases hid : c.id = r.id
    · have h1 : (updOf outcome now r c).contacted = 1 ∨
          (updOf outcome now r c).contacted = -1 := by
        cases h : outcome r.id <;> simp [updOf, h, hid]
      rcases ih (updOf outcome now r c) with h2 | ⟨_, h2b⟩
      · refine Or.inr ⟨by rw [hid]; exact List.mem_cons_self _ _, ?_⟩
        rw [hstep, h2]
        exact h1
      · exact Or.inr ⟨by rw [hid]; exact List.mem_cons_self _ _, by rw [hstep]; exact h2b⟩
    · have h1 : updOf outcome now r c = c := by
        cases h : outcome r.id <;> simp [updOf, h, hid]
      rw [hstep, h1]
      rcases ih c with h2 | ⟨h2a, h2b⟩
      · exact Or.inl h2
      · exact Or.inr ⟨List.mem_cons_of_mem _ h2a, h2b⟩

theorem chainUpd_shape (outcome : Nat → Option String) (now : String) :
    ∀ (rows : List Contact) (r c : Contact), r ∈ rows →
      (rows.map (fun x => x.id)).Nodup → c.id = r.id →
      ((outcome r.id = none →
          (chainUpd outcome now rows c).contacted = 1 ∧
          (chainUpd outcome now rows c).contacted_at = some now ∧
          (chainUpd outcome now rows c).last_error = none) ∧
        (∀ e, outcome r.id = some e →
          (chainUpd outcome now rows c).contacted = -1 ∧
          (chainUpd outcome now rows c).contacted_at = some now ∧
          (chainUpd outcome now rows c).last_error = some (strTake e 500))) := by
  intro rows
  induction rows with
  | nil =>
    intro r c hr
    exact absurd hr (List.not_mem_nil r)
  | cons x xs ih =>
    intro r c hr hnd hcid
    rw [List.map_cons] at hnd
    have hx : x.id ∉ xs.map (fun t => t.id) := (List.nodup_cons.mp hnd).1
    have hstep : chainUpd outcome now (x :: xs) c =
        chainUpd outcome now xs (updOf outcome now x c) := rfl
    rcases List.mem_cons.mp hr with heq | hmem
    · subst heq
      have hnot : (updOf outcome now r c).id ∉ xs.map (fun t => t.id) := by
        rw [updOf_id, hcid]
        exact hx
      constructor
      · intro hnone
        have h1 : updOf outcome now r c =
            { c with contacted := 1, contacted_at := some now, last_error := none } := by
          simp [updOf, hnone, hcid]
        rw [hstep, chainUpd_not_mem _ _ _ _ hnot, h1]
        exact ⟨rfl, rfl, rfl⟩
      · intro e hsome
        have h1 : updOf outcome now r c =
            { c with contacted := -1, contacted_at := some now,
                     last_error := some (strTake e 500) } := by
          simp [updOf, hsome, hcid]
        rw [hstep, chainUpd_not_mem _ _ _ _ hnot, h1]
        exact ⟨rfl, rfl, rfl⟩
    · have hne : c.id ≠ x.id := by
        intro hcx
        apply hx
        rw [← hcx, hcid]
        exact List.mem_map.mpr ⟨r, hmem, rfl⟩
      have h1 : updOf outcome now x c = c := by
        cases h : outcome x.id <;> simp [updOf, h, hne]
      rw [hstep, h1]
      exact ih r c hmem (List.nodup_cons.mp hnd).2 hcid

theorem chainUpd_allNone (now : String) :
    ∀ (rows : List Contact) (c : Contact),
      (c.id ∈ rows.map (fun r => r.id) ∨ (c.contacted = 1 ∧ c.contacted_at = some now)) →
      (chainUpd (fun _ => none) now rows c).contacted = 1 ∧
        (chainUpd (fun _ => none) now rows c).contacted_at = some now := by
  intro rows
  induction rows with
  | nil =>
    intro c h
    rcases h with h | h
    · simp at h
    · exact h
  | cons r rs ih =>
    intro c h
    have hstep : chainUpd (fun _ => none) now (r :: rs) c =
        chainUpd (fun _ => none) now rs (updOf (fun _ => none) now r c) := rfl
    by_cases hid : c.id = r.id
    · have h1 : updOf (fun _ => none) now r c =
          { c with contacted := 1, contacted_at := some now, last_error := none } := by
        simp [updOf, hid]
      rw [hstep]
      exact ih _ (Or.inr (by rw [h1]; exact ⟨rfl, rfl⟩))
    · have h1 : updOf (fun _ => none) now r c = c := by
        simp [updOf, hid]
      rw [hstep, h1]
      apply ih
      rcases h with hmem | hdone
      · rw [List.map_cons] at hmem
        rcases List.mem_cons.mp hmem with h2 | h2
        · exact absurd h2 hid
        · exact Or.inl h2
      · exact Or.inr hdone

theorem run_mailer_db_cases (db : DB) (env : MailerEnv) (limit : Nat)
    (outcome : Nat → Option String) (now : String) :
    (run_mailer db env limit outcome now).db = db ∨
    (run_mailer db env limit outcome now).db =
      (fetch_send_queue db limit).foldl (stepDb outcome now) db ∨
    (run_mailer db env limit outcome now).db =
      (fetch_send_queue db limit).foldl (stepDb (fun _ => none) now) db := by
  unfold run_mailer
  dsimp only
  repeat' split
  all_goals
    first
      | exact Or.inl rfl
      | (exact Or.inr (Or.inl (processContact_fst _ _ _ _ _ _)))
      | (exact Or.inr (Or.inr (processContact_fst _ _ _ _ _ _)))

theorem run_mailer_dry_opened (db : DB) (env : MailerEnv) (limit : Nat)
    (outcome : Nat → Option String) (now : String) (hdry : env.dryRun = true) :
    (run_mailer db env limit outcome now).opened = false := by
  unfold run_mailer
  dsimp only
  rw [hdry]
  repeat' split
  all_goals first
    | rfl
    | (exact absurd rfl (by assumption))

theorem run_mailer_dry (db : DB) (env : MailerEnv) (limit : Nat)
    (outcome : Nat → Option String) (now : String) (hdry : env.dryRun = true)
    (hres : env.resumeExists = true)
    (hpend : (db.contacts.filter (fun c => c.contacted = 0)).length ≠ 0)
    (hrows : (fetch_send_queue db limit).length ≠ 0) :
    (run_mailer db env limit outcome now).db =
      (fetch_send_queue db limit).foldl (stepDb (fun _ => none) now) db := by
  unfold run_mailer
  dsimp only
  rw [if_neg hpend, if_neg (by rw [hres]; exact fun h => Bool.noConfusion h),
    if_neg hrows, if_pos hdry]
  exact processContact_fst _ _ _ _ _ _

theorem run_mailer_ok (db : DB) (env : MailerEnv) (limit : Nat)
    (outcome : Nat → Option String) (now : String) (hdry : env.dryRun = false)
    (hres : env.resumeExists = true) (hhost : env.smtpHostSet = true)
    (hfrom : env.fromEmailSet = true) (hsetup : env.setup = SetupResult.ok)
    (hpend : (db.contacts.filter (fun c => c.contacted = 0)).length ≠ 0)
    (hrows : (fetch_send_queue db limit).length ≠ 0) :
    (run_mailer db env limit outcome now).db =
      (fetch_send_queue db limit).foldl (stepDb outcome now) db ∧
    (run_mailer db env limit outcome now).sent +
      (run_mailer db env limit outcome now).failed = (fetch_send_queue db limit).length := by
  have hred :
      run_mailer db env limit outcome now =
        ⟨((fetch_send_queue db limit).foldl (processContact outcome now) (db, 0, 0)).1,
          true, true, none,
          ((fetch_send_queue db limit).foldl (processContact outcome now) (db, 0, 0)).2.1,
          ((fetch_send_queue db limit).foldl (processContact outcome now) (db, 0, 0)).2.2⟩ := by
    unfold run_mailer
    dsimp only
    rw [if_neg hpend, if_neg (by rw [hres]; exact fun h => Bool.noConfusion h),
      if_neg hrows, if_neg (by rw [hdry]; exact fun h => Bool.noConfusion h),
      if_neg (by rw [hhost]; exact fun h => Bool.noConfusion h),
      if_neg (by rw [hfrom]; exact fun h => Bool.noConfusion h), hsetup]
  constructor
  · rw [hred]
    exact processContact_fst _ _ _ _ _ _
  · rw [hred]
    dsimp only
    have h := processContact_counts outcome now (fetch_send_queue db limit) db 0 0
    omega

theorem loop_member_transition (db : DB)
    (hnd : (db.contacts.map (fun c => c.id)).Nodup) (o : Nat → Option String)
    (now : String) (limit : Nat) :
    ∀ row' ∈ ((fetch_send_queue db limit).foldl (stepDb o now) db).contacts,
      ∃ row ∈ db.contacts, row'.id = row.id ∧
        (row'.contacted = row.contacted ∨
          (row.contacted = 0 ∧ (row'.contacted = 1 ∨ row'.contacted = -1))) := by
  intro row' hrow'
  rw [loop_contacts] at hrow'
  obtain ⟨row, hrowmem, heq⟩ := List.mem_map.mp hrow'
  subst heq
  refine ⟨row, hrowmem, chainUpd_id _ _ _ _, ?_⟩
  rcases chainUpd_cases o now (fetch_send_queue db limit) row with hc | ⟨hmem, hc⟩
  · exact Or.inl (by rw [hc])
  · right
    refine ⟨?_, hc⟩
    obtain ⟨r, hr, hrid⟩ := List.mem_map.mp hmem
    have hrdb := fetch_mem hr
    have hreq : r = row := List.inj_on_of_nodup_map hnd hrdb.1 hrowmem hrid
    rw [← hreq]
    exact hrdb.2

theorem loop_pres_nonzero (t : Nat) (o : Nat → Option String) (now : String)
    (rows : List Contact) (d : DB)
    (h : ∀ row ∈ d.contacts, row.id = t → row.contacted ≠ 0) :
    ∀ row ∈ (rows.foldl (stepDb o now) d).contacts, row.id = t → row.contacted ≠ 0 := by
  intro row' hrow' hid
  rw [loop_contacts] at hrow'
  obtain ⟨row, hrowmem, heq⟩ := List.mem_map.mp hrow'
  subst heq
  rcases chainUpd_cases o now rows row with hc | ⟨_, hc⟩
  · rw [hc]
    rw [hc] at hid
    exact h row hrowmem hid
  · omega

theorem run_pres_nonzero (t : Nat) (db : DB) (env : MailerEnv) (limit : Nat)
    (outcome : Nat → Option String) (now : String)
    (h : ∀ row ∈ db.contacts, row.id = t → row.contacted ≠ 0) :
    ∀ row ∈ (run_mailer db env limit outcome now).db.contacts,
      row.id = t → row.contacted ≠ 0 := by
  rcases run_mailer_db_cases db env limit outcome now with hc | hc | hc <;> rw [hc]
  · exact h
  · exact loop_pres_nonzero t outcome now _ db h
  · exact loop_pres_nonzero t (fun _ => none) now _ db h

theorem applyRuns_pres_nonzero (t : Nat) :
    ∀ (runs : List RunSpec) (db : DB),
      (∀ row ∈ db.contacts, row.id = t → row.contacted ≠ 0) →
      ∀ row ∈ (applyRuns db runs).contacts, row.id = t → row.contacted ≠ 0 := by
  intro runs
  induction runs with
  | nil => intro db h; exact h
  | cons r rs ih =>
    intro db h
    exact ih _ (run_pres_nonzero t db r.env r.limit r.outcome r.now h)

/-! ## Claim C2 -/

/-- C2: in a store whose contact ids are unique, every row after a
send-queue run either kept its contacted value or moved from 0 to 1 or
from 0 to minus 1 (transitions out of pending only), and a contact whose
contacted value is nonzero (sent or failed) is never returned by the
pending fetch after any number of further runs. -/
theorem claim_C2_status_transitions (db : DB)
    (hnd : (db.contacts.map (fun c => c.id)).Nodup) (env : MailerEnv) (limit : Nat)
    (outcome : Nat → Option String) (now : String) :
    (∀ row' ∈ (run_mailer db env limit outcome now).db.contacts,
      ∃ row ∈ db.contacts, row'.id = row.id ∧
        (row'.contacted = row.contacted ∨
          (row.contacted = 0 ∧ (row'.contacted = 1 ∨ row'.contacted = -1)))) ∧
    (∀ (runs : List RunSpec) (limit2 : Nat) (c : Contact), c ∈ db.contacts →
      c.contacted ≠ 0 →
      ∀ c2 ∈ fetch_send_queue (applyRuns db runs) limit2, c2.id ≠ c.id) := by
  constructor
  · rcases run_mailer_db_cases db env limit outcome now with hc | hc | hc <;> rw [hc]
    · exact fun row' h => ⟨row', h, rfl, Or.inl rfl⟩
    · exact loop_member_transition db hnd outcome now limit
    · exact loop_member_transition db hnd (fun _ => none) now limit
  · intro runs limit2 c hc hcnz c2 hc2 heq
    have hinit : ∀ row ∈ db.contacts, row.id = c.id → row.contacted ≠ 0 := by
      intro row hrow hid
      have : row = c := List.inj_on_of_nodup_map hnd hrow hc hid
      rw [this]
      exact hcnz
    have hfin := applyRuns_pres_nonzero c.id runs db hinit
    have h2 := fetch_mem hc2
    exact hfin c2 h2.1 heq h2.2

/-- C2 witness: the nodup hypothesis holds on the two-contact store and
the theorem applies to a dry run over it. -/
theorem claim_C2_witness :
    (exDbTie.contacts.map (fun c => c.id)).Nodup ∧
    ((∀ row' ∈ (run_mailer exDbTie envDry 2 (fun _ => none) "t").db.contacts,
      ∃ row ∈ exDbTie.contacts, row'.id = row.id ∧
        (row'.contacted = row.contacted ∨
          (row.contacted = 0 ∧ (row'.contacted = 1 ∨ row'.contacted = -1)))) ∧
    (∀ (runs : List RunSpec) (limit2 : Nat) (c : Contact), c ∈ exDbTie.contacts →
      c.contacted ≠ 0 →
      ∀ c2 ∈ fetch_send_queue (applyRuns exDbTie runs) limit2, c2.id ≠ c.id)) :=
  ⟨by decide, claim_C2_status_transitions exDbTie (by decide) envDry 2 (fun _ => none) "t"⟩

/-! ## Claim C8 -/

/-- C8: a dry run opens no transport connection, yet (when the resume
resource exists) still transitions every fetched contact to sent with the
timestamp recorded, no matter what the per-contact delivery outcomes
would have been. -/
theorem claim_C8_dry_run_isolation (db : DB) (env : MailerEnv) (limit : Nat)
    (outcome : Nat → Option String) (now : String) (hdry : env.dryRun = true) :
    (run_mailer db env limit outcome now).opened = false ∧
    (env.resumeExists = true →
      ∀ c ∈ fetch_send_queue db limit,
        ∀ row ∈ (run_mailer db env limit outcome now).db.contacts,
          row.id = c.id → row.contacted = 1 ∧ row.contacted_at = some now) := by
  refine ⟨run_mailer_dry_opened db env limit outcome now hdry, ?_⟩
  intro hres c hc row hrow hid
  by_cases hpend : (db.contacts.filter (fun x => x.contacted = 0)).length = 0
  · have hnil : db.contacts.filter (fun x => x.contacted = 0) = [] :=
      List.length_eq_zero.mp hpend
    have : c ∈ db.contacts.filter (fun x => x.contacted = 0) := by
      have h1 := fetch_mem hc
      rw [List.mem_filter]
      exact ⟨h1.1, by simp [h1.2]⟩
    rw [hnil] at this
    exact absurd this (List.not_mem_nil c)
  · by_cases hrows : (fetch_send_queue db limit).length = 0
    · rw [List.length_eq_zero.mp hrows] at hc
      exact absurd hc (List.not_mem_nil c)
    · have hdb := run_mailer_dry db env limit outcome now hdry hres hpend hrows
      rw [hdb, loop_contacts] at hrow
      obtain ⟨c0, hc0, hceq⟩ := List.mem_map.mp hrow
      subst hceq
      have hcid : c0.id = c.id := by
        rw [← chainUpd_id (fun _ => none) now (fetch_send_queue db limit) c0]
        exact hid
      apply chainUpd_allNone
      left
      rw [hcid]
      exact List.mem_map.mpr ⟨c, hc, rfl⟩

/-- C8 witness: a dry run over the two-contact store opens nothing and
marks both fetched contacts sent. -/
theorem claim_C8_witness :
    envDry.dryRun = true ∧
    ((run_mailer exDbTie envDry 2 (fun _ => some "boom") "t").opened = false ∧
    (envDry.resumeExists = true →
      ∀ c ∈ fetch_send_queue exDbTie 2,
        ∀ row ∈ (run_mailer exDbTie envDry 2 (fun _ => some "boom") "t").db.contacts,
          row.id = c.id → row.contacted = 1 ∧ row.contacted_at = some "t")) :=
  ⟨rfl, claim_C8_dry_run_isolation exDbTie envDry 2 (fun _ => some "boom") "t" rfl⟩

/-! ## Claim C3 -/

/-- C3: on a real (non-dry) run whose setup succeeds, a contact whose
delivery attempt raises the error e is set to failed with the stringified
error truncated to at most 500 characters and the timestamp recorded,
updated in the store at its own step, while every other fetched contact
is still processed to its own terminal status (success marks it sent),
and the sent plus failed counters always account for the whole fetched
batch, so a single failing recipient never aborts the run. -/
theorem claim_C3_failure_isolation (db : DB)
    (hnd : (db.contacts.map (fun c => c.id)).Nodup) (env : MailerEnv) (limit : Nat)
    (outcome : Nat → Option String) (now : String) (hdry : env.dryRun = false)
    (hres : env.resumeExists = true) (hhost : env.smtpHostSet = true)
    (hfrom : env.fromEmailSet = true) (hsetup : env.setup = SetupResult.ok) :
    (∀ c ∈ fetch_send_queue db limit,
      (∀ e, outcome c.id = some e →
        ∀ row ∈ (run_mailer db env limit outcome now).db.contacts, row.id = c.id →
          row.contacted = -1 ∧ row.last_error = some (strTake e 500) ∧
          (strTake e 500).length ≤ 500 ∧ row.contacted_at = some now) ∧
      (outcome c.id = none →
        ∀ row ∈ (run_mailer db env limit outcome now).db.contacts, row.id = c.id →
          row.contacted = 1 ∧ row.contacted_at = some now)) ∧
    (run_mailer db env limit outcome now).sent +
      (run_mailer db env limit outcome now).failed = (fetch_send_queue db limit).length := by
  have htrunc : ∀ e : String, (strTake e 500).length ≤ 500 := by
    intro e
    show (e.data.take 500).length ≤ 500
    rw [List.length_take]
    exact inf_le_left
  by_cases hpend : (db.contacts.filter (fun x => x.contacted = 0)).length = 0
  · have hnil : db.contacts.filter (fun x => x.contacted = 0) = [] :=
      List.length_eq_zero.mp hpend
    have hfetchnil : fetch_send_queue db limit = [] := by
      unfold fetch_send_queue
      rw [hnil]
      simp [List.insertionSort]
    constructor
    · intro c hc
      rw [hfetchnil] at hc
      exact absurd hc (List.not_mem_nil c)
    · have hrun : run_mailer db env limit outcome now = ⟨db, false, false, none, 0, 0⟩ := by
        unfold run_mailer
        dsimp only
        rw [if_pos hpend]
      rw [hrun, hfetchnil]
      rfl
  · by_cases hrows : (fetch_send_queue db limit).length = 0
    · have hfetchnil : fetch_send_queue db limit = [] := List.length_eq_zero.mp hrows
      constructor
      · intro c hc
        rw [hfetchnil] at hc
        exact absurd hc (List.not_mem_nil c)
      · have hrun : run_mailer db env limit outcome now = ⟨db, false, false, none, 0, 0⟩ := by
          unfold run_mailer
          dsimp only
          rw [if_neg hpend, if_neg (by rw [hres]; exact fun h => Bool.noConfusion h),
            if_pos hrows]
        rw [hrun, hfetchnil]
        rfl
    · obtain ⟨hdb, hcounts⟩ :=
        run_mailer_ok db env limit outcome now hdry hres hhost hfrom hsetup hpend hrows
      refine ⟨?_, hcounts⟩
      intro c hc
      have hrowsnd : ((fetch_send_queue db limit).map (fun x => x.id)).Nodup :=
        fetch_ids_nodup hnd limit
      constructor
      · intro e he row hrow hid
        rw [hdb, loop_contacts] at hrow
        obtain ⟨c0, hc0, hceq⟩ := List.mem_map.mp hrow
        subst hceq
        have hcid : c0.id = c.id := by
          rw [← chainUpd_id outcome now (fetch_send_queue db limit) c0]
          exact hid
        have hshape := (chainUpd_shape outcome now (fetch_send_queue db limit) c c0
          hc hrowsnd hcid).2 e he
        exact ⟨hshape.1, hshape.2.2, htrunc e, hshape.2.1⟩
      · intro he row hrow hid
        rw [hdb, loop_contacts] at hrow
        obtain ⟨c0, hc0, hceq⟩ := List.mem_map.mp hrow
        subst hceq
        have hcid : c0.id = c.id := by
          rw [← chainUpd_id outcome now (fetch_send_queue db limit) c0]
          exact hid
        have hshape := (chainUpd_shape outcome now (fetch_send_queue db limit) c c0
          hc hrowsnd hcid).1 he
        exact ⟨hshape.1, hshape.2.1⟩

/-- C3 witness: on the two-contact store with a run whose first contact
fails and whose second succeeds, the theorem applies with every
hypothesis discharged by computation. -/
theorem claim_C3_witness :
    ((exDbTie.contacts.map (fun c => c.id)).Nodup ∧ envOk.dryRun = false ∧
      envOk.resumeExists = true ∧ envOk.smtpHostSet = true ∧
      envOk.fromEmailSet = true ∧ envOk.setup = SetupResult.ok) ∧
    ((∀ c ∈ fetch_send_queue exDbTie 2,
      (∀ e, (fun i => if i = 1 then some "boom" else none) c.id = some e →
        ∀ row ∈ (run_mailer exDbTie envOk 2
            (fun i => if i = 1 then some "boom" else none) "t").db.contacts,
          row.id = c.id →
          row.contacted = -1 ∧ row.last_error = some (strTake e 500) ∧
          (strTake e 500).length ≤ 500 ∧ row.contacted_at = some "t") ∧
      ((fun i => if i = 1 then some "boom" else none) c.id = none →
        ∀ row ∈ (run_mailer exDbTie envOk 2
            (fun i => if i = 1 then some "boom" else none) "t").db.contacts,
          row.id = c.id → row.contacted = 1 ∧ row.contacted_at = some "t")) ∧
    (run_mailer exDbTie envOk 2 (fun i => if i = 1 then some "boom" else none) "t").sent +
      (run_mailer exDbTie envOk 2 (fun i => if i = 1 then some "boom" else none) "t").failed =
        (fetch_send_queue exDbTie 2).length) :=
  ⟨⟨by decide, rfl, rfl, rfl, rfl, rfl⟩,
    claim_C3_failure_isolation exDbTie (by decide) envOk 2
      (fun i => if i = 1 then some "boom" else none) "t" rfl rfl rfl rfl rfl⟩

/-! ## Import lemmas -/

theorem insertCompanyIgnore_contacts (db : DB) (dom org cat : String) :
    (insertCompanyIgnore db dom org cat).contacts = db.contacts := by
  unfold insertCompanyIgnore
  split <;> rfl

theorem insertCompanyIgnore_nextContactId (db : DB) (dom org cat : String) :
    (insertCompanyIgnore db dom org cat).nextContactId = db.nextContactId := by
  unfold insertCompanyIgnore
  split <;> rfl

theorem contactStep_companies (cid : Nat) (d : DB) (c : JsonContact) :
    (contactStep cid d c).companies = d.companies := by
  unfold contactStep
  dsimp only
  split
  · rfl
  · unfold insertContactIgnore
    split <;> rfl

theorem contactStep_mono (cid : Nat) (d : DB) (c : JsonContact) :
    ∃ rest, (contactStep cid d c).contacts = d.contacts ++ rest := by
  unfold contactStep
  dsimp only
  split
  · exact ⟨[], (List.append_nil _).symm⟩
  · unfold insertContactIgnore
    split
    · exact ⟨[], (List.append_nil _).symm⟩
    · exact ⟨_, rfl⟩

theorem contactsFold_mono (cid : Nat) :
    ∀ (cs : List JsonContact) (d : DB),
      ∃ rest, (cs.foldl (contactStep cid) d).contacts = d.contacts ++ rest := by
  intro cs
  induction cs with
  | nil => intro d; exact ⟨[], (List.append_nil _).symm⟩
  | cons c cs ih =>
    intro d
    obtain ⟨r1, h1⟩ := contactStep_mono cid d c
    obtain ⟨r2, h2⟩ := ih (contactStep cid d c)
    exact ⟨r1 ++ r2, by rw [List.foldl_cons, h2, h1, List.append_assoc]⟩

theorem contactsFold_companies (cid : Nat) :
    ∀ (cs : List JsonContact) (d : DB),
      (cs.foldl (contactStep cid) d).companies = d.companies := by
  intro cs
  induction cs with
  | nil => intro d; rfl
  | cons c cs ih =>
    intro d
    rw [List.foldl_cons, ih, contactStep_companies]

theorem importItem_mono (db : DB) (it : JsonItem) :
    ∃ rest, (importItem db it).contacts = db.contacts ++ rest := by
  unfold importItem
  dsimp only
  split
  · exact ⟨[], (List.append_nil _).symm⟩
  · split
    · exact ⟨[], by rw [insertCompanyIgnore_contacts, List.append_nil]⟩
    · obtain ⟨r, hr⟩ := contactsFold_mono _ it.contacts _
      exact ⟨r, by rw [hr, insertCompanyIgnore_contacts]⟩

theorem insertCompanyIgnore_companies (db : DB) (dom org cat : String) :
    (insertCompanyIgnore db dom org cat).companies = db.companies ∨
      (insertCompanyIgnore db dom org cat).companies =
        db.companies ++ [⟨db.nextCompanyId, dom, some org, some cat⟩] := by
  unfold insertCompanyIgnore
  split
  · exact Or.inl rfl
  · exact Or.inr rfl

theorem importItem_companies (db : DB) (it : JsonItem) :
    (importItem db it).companies = db.companies ∨
      ∃ nc, (importItem db it).companies = db.companies ++ [nc] := by
  unfold importItem
  dsimp only
  split
  · exact Or.inl rfl
  · split
    · rcases insertCompanyIgnore_companies db _ _ "engineering" with h | h
      · exact Or.inl h
      · exact Or.inr ⟨_, h⟩
    · rw [contactsFold_companies]
      rcases insertCompanyIgnore_companies db _ _ "engineering" with h | h
      · exact Or.inl h
      · exact Or.inr ⟨_, h⟩

theorem import_json_contacts_mono (data : List JsonItem) :
    ∀ db : DB, ∃ rest,
      (import_json_contacts db data).contacts = db.contacts ++ rest := by
  induction data with
  | nil => intro db; exact ⟨[], (List.append_nil _).symm⟩
  | cons it rest ih =>
    intro db
    obtain ⟨r1, h1⟩ := importItem_mono db it
    obtain ⟨r2, h2⟩ := ih (importItem db it)
    exact ⟨r1 ++ r2, by
      show (import_json_contacts (importItem db it) rest).contacts = _
      rw [h2, h1, List.append_assoc]⟩

theorem findCompanyId_mono (db : DB) (it2 : JsonItem) (dom : String) (cid : Nat)
    (h : findCompanyId db.companies dom = some cid) :
    findCompanyId (importItem db it2).companies dom = some cid := by
  rcases importItem_companies db it2 with hc | ⟨nc, hc⟩ <;> rw [hc] at *
  · exact h
  · unfold findCompanyId at h ⊢
    obtain ⟨co, hco, hcoid⟩ := Option.map_eq_some'.mp h
    rw [List.find?_append, hco]
    simp [hcoid]

theorem settled_importItem (db : DB) (it it2 : JsonItem) (h : itemSettled db it) :
    itemSettled (importItem db it2) it := by
  rcases h with h | ⟨cid, hfind, hall⟩
  · exact Or.inl h
  · refine Or.inr ⟨cid, findCompanyId_mono db it2 _ cid hfind, ?_⟩
    intro c hc
    rcases hall c hc with h1 | ⟨ct, hct, hprops⟩
    · exact Or.inl h1
    · obtain ⟨rest, hrest⟩ := importItem_mono db it2
      exact Or.inr ⟨ct, by rw [hrest]; exact List.mem_append_left _ hct, hprops⟩

theorem settled_import_fold (data : List JsonItem) :
    ∀ (db : DB) (it : JsonItem),
      itemSettled db it → itemSettled (import_json_contacts db data) it := by
  induction data with
  | nil => intro db it h; exact h
  | cons d0 rest ih =>
    intro db it h
    exact ih _ it (settled_importItem db it d0 h)

theorem fold_settled_eq (cid : Nat) :
    ∀ (cs : List JsonContact) (d : DB),
      (∀ c ∈ cs, strTrim (c.email.getD "") = "" ∨
        ∃ ct ∈ d.contacts, ct.company_id = some cid ∧
          ct.email = strTrim (c.email.getD "")) →
      cs.foldl (contactStep cid) d = d := by
  intro cs
  induction cs with
  | nil => intro d _; rfl
  | cons c cs ih =>
    intro d hall
    have hstep : contactStep cid d c = d := by
      unfold contactStep
      dsimp only
      rcases hall c (List.mem_cons_self _ _) with h1 | ⟨ct, hct, hprop⟩
      · rw [if_pos h1]
      · by_cases hb : strTrim (c.email.getD "") = ""
        · rw [if_pos hb]
        · rw [if_neg hb]
          unfold insertContactIgnore
          have hany : d.contacts.any
              (fun ct => ct.company_id = some cid && ct.email = strTrim (c.email.getD "")) =
                true :=
            List.any_eq_true.mpr ⟨ct, hct, by simp [hprop.1, hprop.2]⟩
          rw [if_pos hany]
    rw [List.foldl_cons, hstep]
    exact ih d (fun c2 h2 => hall c2 (List.mem_cons_of_mem _ h2))

theorem importItem_settled_eq (db : DB) (it : JsonItem) (h : itemSettled db it) :
    importItem db it = db := by
  by_cases hdom : strTrim (it.domain.getD "") = ""
  · unfold importItem
    dsimp only
    rw [if_pos hdom]
  · rcases h with h | ⟨cid, hfind, hall⟩
    · exact absurd h hdom
    · unfold importItem
      dsimp only
      rw [if_neg hdom]
      have hany : db.companies.any
          (fun co => co.domain = strTrim (it.domain.getD "")) = true := by
        unfold findCompanyId at hfind
        obtain ⟨co, hco, _⟩ := Option.map_eq_some'.mp hfind
        have hmem := List.mem_of_find?_eq_some hco
        have hp := List.find?_some hco
        exact List.any_eq_true.mpr ⟨co, hmem, hp⟩
      have hdb1 : insertCompanyIgnore db (strTrim (it.domain.getD ""))
          (firstNonEmpty it.organization
            (firstNonEmpty it.company (strTrim (it.domain.getD "")))) "engineering" = db := by
        unfold insertCompanyIgnore
        rw [if_pos hany]
      rw [hdb1, hfind]
      exact fold_settled_eq cid it.contacts db hall

theorem findCompanyId_after_insert (db : DB) (dom org cat : String) :
    ∃ cid, findCompanyId (insertCompanyIgnore db dom org cat).companies dom = some cid := by
  by_cases h : db.companies.any (fun co => co.domain = dom) = true
  · have hdb : insertCompanyIgnore db dom org cat = db := by
      unfold insertCompanyIgnore
      rw [if_pos h]
    rw [hdb]
    obtain ⟨co, hco, hp⟩ := List.any_eq_true.mp h
    have hsome : (db.companies.find? (fun co => co.domain = dom)).isSome =
        true := List.find?_isSome.mpr ⟨co, hco, hp⟩
    obtain ⟨co2, hco2⟩ := Option.isSome_iff_exists.mp hsome
    refine ⟨co2.id, ?_⟩
    unfold findCompanyId
    rw [hco2]
    rfl
  · have hdb : insertCompanyIgnore db dom org cat =
        { db with
          companies := db.companies ++ [⟨db.nextCompanyId, dom, some org, some cat⟩],
          nextCompanyId := db.nextCompanyId + 1 } := by
      unfold insertCompanyIgnore
      rw [if_neg h]
    rw [hdb]
    have hnone : db.companies.find? (fun co => co.domain = dom) = none := by
      rw [List.find?_eq_none]
      intro x hx hpx
      exact h (List.any_eq_true.mpr ⟨x, hx, hpx⟩)
    refine ⟨db.nextCompanyId, ?_⟩
    unfold findCompanyId
    show ((db.companies ++ [(⟨db.nextCompanyId, dom, some org, some cat⟩ : Company)]).find?
      (fun co => co.domain = dom)).map (fun co : Company => co.id) = some db.nextCompanyId
    rw [List.find?_append, hnone]
    simp [List.find?]

theorem importItem_eq_fold (db : DB) (it : JsonItem)
    (hdom : strTrim (it.domain.getD "") ≠ "") {cid : Nat}
    (hfind : findCompanyId (insertCompanyIgnore db (strTrim (it.domain.getD ""))
      (firstNonEmpty it.organization (firstNonEmpty it.company (strTrim (it.domain.getD ""))))
      "engineering").companies (strTrim (it.domain.getD "")) = some cid) :
    importItem db it = it.contacts.foldl (contactStep cid)
      (insertCompanyIgnore db (strTrim (it.domain.getD ""))
        (firstNonEmpty it.organization (firstNonEmpty it.company (strTrim (it.domain.getD ""))))
        "engineering") := by
  unfold importItem
  dsimp only
  rw [if_neg hdom, hfind]

theorem fold_settles (cid : Nat) :
    ∀ (cs : List JsonContact) (d : DB), ∀ c ∈ cs,
      strTrim (c.email.getD "") = "" ∨
        ∃ ct ∈ (cs.foldl (contactStep cid) d).contacts,
          ct.company_id = some cid ∧ ct.email = strTrim (c.email.getD "") := by
  intro cs
  induction cs with
  | nil => intro d c hc; exact absurd hc (List.not_mem_nil c)
  | cons c0 cs ih =>
    intro d c hc
    rw [List.foldl_cons]
    rcases List.mem_cons.mp hc with heq | hmem
    · subst heq
      by_cases hb : strTrim (c.email.getD "") = ""
      · exact Or.inl hb
      · right
        have hpres : ∃ ct ∈ (contactStep cid d c).contacts,
            ct.company_id = some cid ∧ ct.email = strTrim (c.email.getD "") := by
          unfold contactStep
          dsimp only
          rw [if_neg hb]
          unfold insertContactIgnore
          split
          · rename_i hany
            obtain ⟨ct, hct, hp⟩ := List.any_eq_true.mp hany
            refine ⟨ct, hct, ?_⟩
            simpa using hp
          · exact ⟨_, List.mem_append_right _ (List.mem_cons_self _ _), rfl, rfl⟩
        obtain ⟨ct, hct, hp⟩ := hpres
        obtain ⟨rest, hrest⟩ := contactsFold_mono cid cs (contactStep cid d c)
        exact ⟨ct, by rw [hrest]; exact List.mem_append_left _ hct, hp⟩
    · exact ih (contactStep cid d c0) c hmem

theorem importItem_settles (db : DB) (it : JsonItem) : itemSettled (importItem db it) it := by
  by_cases hdom : strTrim (it.domain.getD "") = ""
  · exact Or.inl hdom
  · obtain ⟨cid, hfind⟩ := findCompanyId_after_insert db (strTrim (it.domain.getD ""))
      (firstNonEmpty it.organization (firstNonEmpty it.company (strTrim (it.domain.getD ""))))
      "engineering"
    rw [importItem_eq_fold db it hdom hfind]
    refine Or.inr ⟨cid, ?_, ?_⟩
    · rw [contactsFold_companies]
      exact hfind
    · exact fun c hc => fold_settles cid it.contacts _ c hc

theorem import_settles_all (data : List JsonItem) :
    ∀ db : DB, ∀ it ∈ data, itemSettled (import_json_contacts db data) it := by
  induction data with
  | nil => intro db it hit; exact absurd hit (List.not_mem_nil it)
  | cons it0 rest ih =>
    intro db it hit
    rcases List.mem_cons.mp hit with heq | hmem
    · subst heq
      show itemSettled (import_json_contacts (importItem db it) rest) it
      exact settled_import_fold rest _ it (importItem_settles db it)
    · exact ih (importItem db it0) it hmem

theorem import_second_pass (data : List JsonItem) :
    ∀ db : DB, (∀ it ∈ data, itemSettled db it) → import_json_contacts db data = db := by
  induction data with
  | nil => intro db _; rfl
  | cons it0 rest ih =>
    intro db hall
    have h0 : importItem db it0 = db :=
      importItem_settled_eq db it0 (hall it0 (List.mem_cons_self _ _))
    show import_json_contacts (importItem db it0) rest = db
    rw [h0]
    exact ih db (fun it hit => hall it (List.mem_cons_of_mem _ hit))

/-! ## Claim C6 -/

/-- C6: re-importing the same JSON data is a complete no-op on the store
(it neither creates rows nor modifies existing rows), and importing a
(domain, email) pair into a fresh store yields exactly one contact row
for that pair; together, importing the same pair twice leaves exactly
one row. -/
theorem claim_C6_idempotent_import :
    (∀ (db : DB) (data : List JsonItem),
      import_json_contacts (import_json_contacts db data) data =
        import_json_contacts db data) ∧
    (∀ (dom org email : String) (nm : Option String) (cf : Option Int)
        (ty : Option String), strTrim dom ≠ "" → strTrim email ≠ "" →
      ((import_json_contacts initDb
          [⟨some dom, some org, none, [⟨some email, nm, cf, ty⟩]⟩]).contacts.filter
        (fun c => c.company_id = some 1 && c.email = strTrim email)).length = 1) := by
  constructor
  · intro db data
    exact import_second_pass data _ (import_settles_all data db)
  · intro dom org email nm cf ty hdom hemail
    have h1 : import_json_contacts initDb
        [⟨some dom, some org, none, [⟨some email, nm, cf, ty⟩]⟩] =
        ⟨[⟨1, strTrim dom,
            some (firstNonEmpty (some org) (firstNonEmpty none (strTrim dom))),
            some "engineering"⟩],
         [⟨1, some 1, strTrim email, nm, cf, ty, 0, none, none, 0⟩], 2, 2⟩ := by
      show importItem initDb ⟨some dom, some org, none, [⟨some email, nm, cf, ty⟩]⟩ = _
      unfold importItem
      dsimp only
      simp only [Option.getD_some]
      rw [if_neg hdom]
      have h2 : insertCompanyIgnore initDb (strTrim dom)
          (firstNonEmpty (some org) (firstNonEmpty none (strTrim dom))) "engineering" =
          ⟨[⟨1, strTrim dom, some (firstNonEmpty (some org)
              (firstNonEmpty none (strTrim dom))), some "engineering"⟩], [], 2, 1⟩ := by
        unfold insertCompanyIgnore initDb
        rfl
      rw [h2]
      have h3 : findCompanyId
          [(⟨1, strTrim dom, some (firstNonEmpty (some org)
              (firstNonEmpty none (strTrim dom))), some "engineering"⟩ : Company)]
          (strTrim dom) = some 1 := by
        unfold findCompanyId
        simp [List.find?]
      rw [h3]
      show contactStep 1 _ ⟨some email, nm, cf, ty⟩ = _
      unfold contactStep
      dsimp only
      simp only [Option.getD_some]
      rw [if_neg hemail]
      unfold insertContactIgnore
      rfl
    rw [h1]
    simp [List.filter]

/-- C6 witness: a concrete pair imported into the fresh store gives one
row, with the blank-domain and blank-email hypotheses computed. -/
theorem claim_C6_witness :
    (strTrim "x.com" ≠ "" ∧ strTrim "a@x.com" ≠ "") ∧
    ((import_json_contacts initDb
        [⟨some "x.com", some "X", none, [⟨some "a@x.com", none, some 5, none⟩]⟩]).contacts.filter
      (fun c => c.company_id = some 1 && c.email = strTrim "a@x.com")).length = 1 :=
  ⟨by decide, claim_C6_idempotent_import.2 "x.com" "X" "a@x.com" none (some 5) none
    (by decide) (by decide)⟩

/-! ## Claim C9 -/

/-- C9: mark_sent and dismiss_failed touch only the contacted,
contacted_at and last_error columns of the rows whose id matches, leave
every other row entirely unchanged, never touch the companies table, and
an import only appends contact rows, never updating an existing one; so
every operation preserves each existing contact's (company_id, email)
pair. -/
theorem claim_C9_frame_preservation :
    (∀ (db : DB) (cid : Nat) (now : String) (i : Nat) (c : Contact),
      db.contacts.get? i = some c →
      ∃ c', (mark_sent db cid now).contacts.get? i = some c' ∧
        c'.id = c.id ∧ c'.company_id = c.company_id ∧ c'.email = c.email ∧
        c'.name = c.name ∧ c'.confidence = c.confidence ∧ c'.etype = c.etype ∧
        c'.retry_count = c.retry_count ∧ (c.id ≠ cid → c' = c)) ∧
    (∀ (db : DB) (cid : Nat) (err now : String) (i : Nat) (c : Contact),
      db.contacts.get? i = some c →
      ∃ c', (dismiss_failed db cid err now).contacts.get? i = some c' ∧
        c'.id = c.id ∧ c'.company_id = c.company_id ∧ c'.email = c.email ∧
        c'.name = c.name ∧ c'.confidence = c.confidence ∧ c'.etype = c.etype ∧
        c'.retry_count = c.retry_count ∧ (c.id ≠ cid → c' = c)) ∧
    (∀ (db : DB) (cid : Nat) (now : String),
      (mark_sent db cid now).companies = db.companies) ∧
    (∀ (db : DB) (cid : Nat) (err now : String),
      (dismiss_failed db cid err now).companies = db.companies) ∧
    (∀ (db : DB) (data : List JsonItem), ∃ rest,
      (import_json_contacts db data).contacts = db.contacts ++ rest) := by
  refine ⟨?_, ?_, fun _ _ _ => rfl, fun _ _ _ _ => rfl,
    fun db data => import_json_contacts_mono data db⟩
  · intro db cid now i c h
    refine ⟨if c.id = cid then
        { c with contacted := 1, contacted_at := some now, last_error := none }
      else c, ?_, ?_⟩
    · show ((mark_sent db cid now).contacts).get? i = _
      unfold mark_sent
      dsimp only
      rw [List.get?_map, h]
      rfl
    · by_cases hc : c.id = cid <;> simp [hc]
  · intro db cid err now i c h
    refine ⟨if c.id = cid then
        { c with contacted := -1, contacted_at := some now,
                 last_error := some (strTake err 500) }
      else c, ?_, ?_⟩
    · show ((dismiss_failed db cid err now).contacts).get? i = _
      unfold dismiss_failed
      dsimp only
      rw [List.get?_map, h]
      rfl
    · by_cases hc : c.id = cid <;> simp [hc]

/-- C9 witness: the frame property applied to the first row of the
two-contact store for a mark_sent of the second contact. -/
theorem claim_C9_witness :
    exDbTie.contacts.get? 0 = some (mkPending 1 "b@x.com" (some 50)) ∧
    ∃ c', (mark_sent exDbTie 2 "t").contacts.get? 0 = some c' ∧
      c'.id = (mkPending 1 "b@x.com" (some 50)).id ∧
      c'.company_id = (mkPending 1 "b@x.com" (some 50)).company_id ∧
      c'.email = (mkPending 1 "b@x.com" (some 50)).email ∧
      c'.name = (mkPending 1 "b@x.com" (some 50)).name ∧
      c'.confidence = (mkPending 1 "b@x.com" (some 50)).confidence ∧
      c'.etype = (mkPending 1 "b@x.com" (some 50)).etype ∧
      c'.retry_count = (mkPending 1 "b@x.com" (some 50)).retry_count ∧
      ((mkPending 1 "b@x.com" (some 50)).id ≠ 2 → c' = mkPending 1 "b@x.com" (some 50)) :=
  ⟨by decide,
    claim_C9_frame_preservation.1 exDbTie 2 "t" 0 (mkPending 1 "b@x.com" (some 50)) (by decide)⟩

/-! ## Domain normalizer lemmas -/

theorem splitOnDot_ne_nil (l : List Char) : splitOnDot l ≠ [] := by
  cases l with
  | nil => simp [splitOnDot]
  | cons c t =>
    unfold splitOnDot
    split
    · simp
    · cases h : splitOnDot t <;> simp

theorem splitOnDot_no_dot :
    ∀ (l : List Char) (p : List Char), p ∈ splitOnDot l → ∀ x ∈ p, x ≠ '.' := by
  intro l
  induction l with
  | nil =>
    intro p hp x hx
    simp [splitOnDot] at hp
    subst hp
    exact absurd hx (List.not_mem_nil x)
  | cons c t ih =>
    intro p hp x hx
    unfold splitOnDot at hp
    by_cases hc : c = '.'
    · rw [if_pos hc] at hp
      rcases List.mem_cons.mp hp with h1 | h1
      · subst h1
        exact absurd hx (List.not_mem_nil x)
      · exact ih p h1 x hx
    · rw [if_neg hc] at hp
      cases hsp : splitOnDot t with
      | nil => exact absurd hsp (splitOnDot_ne_nil t)
      | cons p0 ps =>
        rw [hsp] at hp
        rcases List.mem_cons.mp hp with h1 | h1
        · subst h1
          rcases List.mem_cons.mp hx with h2 | h2
          · subst h2
            exact hc
          · exact ih p0 (by rw [hsp]; exact List.mem_cons_self _ _) x h2
        · exact ih p (by rw [hsp]; exact List.mem_cons_of_mem _ h1) x hx

theorem splitOnDot_chars :
    ∀ (l : List Char) (p : List Char), p ∈ splitOnDot l → ∀ x ∈ p, x ∈ l := by
  intro l
  induction l with
  | nil =>
    intro p hp x hx
    simp [splitOnDot] at hp
    subst hp
    exact absurd hx (List.not_mem_nil x)
  | cons c t ih =>
    intro p hp x hx
    unfold splitOnDot at hp
    by_cases hc : c = '.'
    · rw [if_pos hc] at hp
      rcases List.mem_cons.mp hp with h1 | h1
      · subst h1
        exact absurd hx (List.not_mem_nil x)
      · exact List.mem_cons_of_mem _ (ih p h1 x hx)
    · rw [if_neg hc] at hp
      cases hsp : splitOnDot t with
      | nil => exact absurd hsp (splitOnDot_ne_nil t)
      | cons p0 ps =>
        rw [hsp] at hp
        rcases List.mem_cons.mp hp with h1 | h1
        · subst h1
          rcases List.mem_cons.mp hx with h2 | h2
          · subst h2
            exact List.mem_cons_self _ _
          · exact List.mem_cons_of_mem _
              (ih p0 (by rw [hsp]; exact List.mem_cons_self _ _) x h2)
        · exact List.mem_cons_of_mem _
            (ih p (by rw [hsp]; exact List.mem_cons_of_mem _ h1) x hx)

theorem splitOnDot_no_dot_self (a : List Char) (h : ∀ x ∈ a, x ≠ '.') :
    splitOnDot a = [a] := by
  induction a with
  | nil => rfl
  | cons c t ih =>
    unfold splitOnDot
    rw [if_neg (h c (List.mem_cons_self _ _))]
    rw [ih (fun x hx => h x (List.mem_cons_of_mem _ hx))]

theorem splitOnDot_append (a r : List Char) (h : ∀ x ∈ a, x ≠ '.') :
    splitOnDot (a ++ '.' :: r) = a :: splitOnDot r := by
  induction a with
  | nil =>
    show splitOnDot ('.' :: r) = [] :: splitOnDot r
    conv_lhs => unfold splitOnDot
    rw [if_pos rfl]
  | cons c t ih =>
    show splitOnDot (c :: (t ++ '.' :: r)) = (c :: t) :: splitOnDot r
    conv_lhs => unfold splitOnDot
    rw [if_neg (h c (List.mem_cons_self _ _))]
    rw [ih (fun x hx => h x (List.mem_cons_of_mem _ hx))]

theorem splitOnDot_joinDots :
    ∀ ps : List (List Char), ps ≠ [] → (∀ p ∈ ps, ∀ x ∈ p, x ≠ '.') →
      splitOnDot (joinDots ps) = ps := by
  intro ps
  induction ps with
  | nil => intro h; exact absurd rfl h
  | cons p rest ih =>
    intro _ hall
    cases rest with
    | nil =>
      show splitOnDot (joinDots [p]) = [p]
      exact splitOnDot_no_dot_self p (hall p (List.mem_cons_self _ _))
    | cons p2 rest2 =>
      show splitOnDot (p ++ '.' :: joinDots (p2 :: rest2)) = p :: p2 :: rest2
      rw [splitOnDot_append _ _ (hall p (List.mem_cons_self _ _))]
      rw [ih (by simp) (fun q hq x hx => hall q (List.mem_cons_of_mem _ hq) x hx)]

theorem joinDots_chars :
    ∀ (ps : List (List Char)) (x : Char), x ∈ joinDots ps →
      x = '.' ∨ ∃ p ∈ ps, x ∈ p := by
  intro ps
  induction ps with
  | nil =>
    intro x hx
    exact absurd hx (List.not_mem_nil x)
  | cons p rest ih =>
    intro x hx
    cases rest with
    | nil =>
      exact Or.inr ⟨p, List.mem_cons_self _ _, hx⟩
    | cons p2 rest2 =>
      rcases List.mem_append.mp hx with h1 | h1
      · exact Or.inr ⟨p, List.mem_cons_self _ _, h1⟩
      · rcases List.mem_cons.mp h1 with h2 | h2
        · exact Or.inl h2
        · rcases ih x h2 with h3 | ⟨q, hq, hxq⟩
          · exact Or.inl h3
          · exact Or.inr ⟨q, List.mem_cons_of_mem _ hq, hxq⟩

theorem suffixIndex_psl (l : List (List Char)) (h : suffixIndex l < l.length) :
    pslChars.contains (joinDots (l.drop (suffixIndex l))) = true := by
  induction l with
  | nil => simp at h
  | cons x t ih =>
    unfold suffixIndex at h ⊢
    by_cases hc : pslChars.contains (joinDots (x :: t)) = true
    · rw [if_pos hc]
      exact hc
    · rw [if_neg hc] at h ⊢
      rw [List.length_cons] at h
      have h2 : suffixIndex t < t.length := by omega
      show pslChars.contains (joinDots ((x :: t).drop (suffixIndex t + 1))) = true
      rw [List.drop_succ_cons]
      exact ih h2

theorem suffixIndex_not_psl (l : List (List Char)) :
    ∀ j < suffixIndex l, pslChars.contains (joinDots (l.drop j)) = false := by
  induction l with
  | nil =>
    intro j hj
    simp [suffixIndex] at hj
  | cons x t ih =>
    intro j hj
    unfold suffixIndex at hj
    by_cases hc : pslChars.contains (joinDots (x :: t)) = true
    · rw [if_pos hc] at hj
      omega
    · rw [if_neg hc] at hj
      cases j with
      | zero =>
        rw [List.drop_zero]
        exact Bool.eq_false_iff.mpr hc
      | succ j2 =>
        rw [List.drop_succ_cons]
        exact ih j2 (by omega)

theorem lowerChar_cases (y : Char) :
    lowerChar y = y ∨ (97 ≤ (lowerChar y).toNat ∧ (lowerChar y).toNat ≤ 122) := by
  by_cases h : 65 ≤ y.toNat ∧ y.toNat ≤ 90
  · right
    have h1 : lowerChar y = Char.ofNat (y.toNat + 32) := by simp [lowerChar, h]
    rw [h1]
    obtain ⟨ha, hb⟩ := h
    generalize y.toNat = m at ha hb
    interval_cases m <;> decide
  · left
    simp [lowerChar, h]

theorem lower_ne (y c : Char) (hy : y ≠ c) (hc : c.toNat < 97 ∨ 122 < c.toNat) :
    lowerChar y ≠ c := by
  rcases lowerChar_cases y with h | ⟨h1, h2⟩
  · rw [h]
    exact hy
  · intro he
    rw [he] at h1 h2
    omega

theorem mem_takeUntil {c : Char} {l : List Char} {x : Char} (h : x ∈ takeUntil c l) :
    x ≠ c ∧ x ∈ l := by
  constructor
  · have := List.mem_takeWhile_imp h
    simpa using this
  · exact (List.takeWhile_sublist _).subset h

theorem mem_afterLastAt {l : List Char} {x : Char} (h : x ∈ afterLastAt l) :
    x ≠ '@' ∧ x ∈ l := by
  unfold afterLastAt at h
  rw [List.mem_reverse] at h
  constructor
  · have := List.mem_takeWhile_imp h
    simpa using this
  · have h2 := (List.takeWhile_sublist _).subset h
    rw [List.mem_reverse] at h2
    exact h2

theorem mem_trimWs {l : List Char} {x : Char} (h : x ∈ trimWs l) : x ∈ l := by
  unfold trimWs at h
  rw [List.mem_reverse] at h
  have h2 := (List.dropWhile_sublist _).subset h
  rw [List.mem_reverse] at h2
  exact (List.dropWhile_sublist _).subset h2

theorem mem_rstripDots {l : List Char} {x : Char} (h : x ∈ rstripDots l) : x ∈ l := by
  unfold rstripDots at h
  rw [List.mem_reverse] at h
  have h2 := (List.dropWhile_sublist _).subset h
  rw [List.mem_reverse] at h2
  exact h2

theorem hostOf_mem (l : List Char) (x : Char) (h : x ∈ hostOf l) :
    lowerChar x = x ∧ x ≠ '/' ∧ x ≠ '?' ∧ x ≠ '#' ∧ x ≠ ':' ∧ x ≠ '@' := by
  unfold hostOf at h
  obtain ⟨y, hy, hxy⟩ := List.mem_map.mp h
  subst hxy
  have h1 := mem_rstripDots hy
  have h2 := mem_trimWs h1
  obtain ⟨hne_colon, h3⟩ := mem_takeUntil h2
  obtain ⟨hne_at, h4⟩ := mem_afterLastAt h3
  obtain ⟨hne_hash, h5⟩ := mem_takeUntil h4
  obtain ⟨hne_q, h6⟩ := mem_takeUntil h5
  obtain ⟨hne_slash, _⟩ := mem_takeUntil h6
  refine ⟨?_, ?_, ?_, ?_, ?_, ?_⟩
  · exact lowerChar_idem y
  · exact lower_ne y '/' hne_slash (by decide)
  · exact lower_ne y '?' hne_q (by decide)
  · exact lower_ne y '#' hne_hash (by decide)
  · exact lower_ne y ':' hne_colon (by decide)
  · exact lower_ne y '@' hne_at (by decide)

theorem startsWithL_chars :
    ∀ (l n : List Char), startsWithL l n = true → ∀ c ∈ n, c ∈ l := by
  intro l
  induction l with
  | nil =>
    intro n h c hc
    cases n with
    | nil => exact absurd hc (List.not_mem_nil c)
    | cons a b => simp [startsWithL] at h
  | cons a b ih =>
    intro n h c hc
    cases n with
    | nil => exact absurd hc (List.not_mem_nil c)
    | cons a2 b2 =>
      simp only [startsWithL, Bool.and_eq_true] at h
      rcases List.mem_cons.mp hc with h1 | h1
      · subst h1
        have := of_decide_eq_true h.1
        rw [← this]
        exact List.mem_cons_self _ _
      · exact List.mem_cons_of_mem _ (ih b2 h.2 c h1)

theorem takeUntil_self (c : Char) (l : List Char) (h : ∀ x ∈ l, x ≠ c) :
    takeUntil c l = l := by
  unfold takeUntil
  exact List.takeWhile_eq_self_iff.mpr (fun x hx => by simpa using h x hx)

theorem afterLastAt_self (l : List Char) (h : ∀ x ∈ l, x ≠ '@') :
    afterLastAt l = l := by
  unfold afterLastAt
  rw [List.takeWhile_eq_self_iff.mpr (fun x hx => by
    simpa using h x (List.mem_reverse.mp hx))]
  exact List.reverse_reverse l

theorem dropWhile_head_false {p : Char → Bool} {l : List Char}
    (h : ∀ x ∈ l, p x = false) : l.dropWhile p = l := by
  cases l with
  | nil => rfl
  | cons a b =>
    rw [List.dropWhile_cons]
    rw [h a (List.mem_cons_self _ _)]
    simp

theorem trimWs_self (l : List Char) (h : ∀ x ∈ l, x.isWhitespace = false) :
    trimWs l = l := by
  unfold trimWs
  rw [dropWhile_head_false h]
  rw [dropWhile_head_false (fun x hx => h x (List.mem_reverse.mp hx))]
  exact List.reverse_reverse l

theorem rstripDots_self (l : List Char) (h : l.reverse.head? ≠ some '.') :
    rstripDots l = l := by
  unfold rstripDots
  cases hl : l.reverse with
  | nil =>
    rw [List.dropWhile_nil]
    rw [← hl]
    exact List.reverse_reverse l
  | cons a b =>
    rw [hl] at h
    have ha : a ≠ '.' := by
      intro hcontra
      rw [hcontra] at h
      exact h rfl
    rw [List.dropWhile_cons]
    rw [decide_eq_false ha]
    rw [← hl]
    simp

theorem firstDoubleSlash_https (l : List Char) (h : '/' ∉ l) :
    firstDoubleSlash ("https://".data ++ l) = some 6 := by
  show firstDoubleSlash ('h' :: 't' :: 't' :: 'p' :: 's' :: ':' :: '/' :: '/' :: l) = some 6
  simp [firstDoubleSlash]

theorem schemelessUrl_https (l : List Char) (h : '/' ∉ l) :
    schemelessUrl ("https://".data ++ l) = l := by
  unfold schemelessUrl
  rw [firstDoubleSlash_https l h]
  dsimp only
  rw [if_neg (by decide : ¬ (6 : Nat) = 0)]
  rw [if_pos]
  · show ("https://".data ++ l).drop 8 = l
    rw [show (8 : Nat) = ("https://".data).length from rfl]
    exact List.drop_left _ _
  · refine ⟨by decide, ?_, ?_⟩
    · rw [List.get?_append (by decide : (5 : Nat) < ("https://".data).length)]
      rfl
    · rw [List.take_append_of_le_length (by decide : (5 : Nat) ≤ ("https://".data).length)]
      decide

theorem assembleDomain_some {labels : List (List Char)} {d : List Char}
    (h : assembleDomain labels = some d) :
    suffixIndex labels ≠ 0 ∧ suffixIndex labels < labels.length ∧
    ∃ dom, labels.get? (suffixIndex labels - 1) = some dom ∧ dom ≠ [] ∧
      d = dom ++ '.' :: joinDots (labels.drop (suffixIndex labels)) := by
  unfold assembleDomain at h
  dsimp only at h
  by_cases h1 : suffixIndex labels = 0
  · rw [if_pos h1] at h
    exact absurd h (by simp)
  · rw [if_neg h1] at h
    by_cases h2 : labels.length ≤ suffixIndex labels
    · rw [if_pos h2] at h
      exact absurd h (by simp)
    · rw [if_neg h2] at h
      cases hget : labels.get? (suffixIndex labels - 1) with
      | none =>
        rw [hget] at h
        exact absurd h (by simp)
      | some dom =>
        rw [hget] at h
        dsimp only at h
        by_cases h3 : dom = []
        · rw [if_pos h3] at h
          exact absurd h (by simp)
        · rw [if_neg h3] at h
          refine ⟨h1, by omega, dom, rfl, h3, ?_⟩
          injection h with h4
          exact h4.symm

theorem psl_entries : ∀ s ∈ pslChars, s ≠ [] ∧ s.reverse.head? ≠ some '.' := by
  decide

theorem assemble_roundtrip (labels : List (List Char)) (d : List Char)
    (hdots : ∀ p ∈ labels, ∀ x ∈ p, x ≠ '.')
    (h : assembleDomain labels = some d) :
    assembleDomain (splitOnDot d) = some d := by
  obtain ⟨hi0, hilen, dom, hget, hdomne, hdeq⟩ := assembleDomain_some h
  have hdropne : labels.drop (suffixIndex labels) ≠ [] := by
    intro hnil
    have := List.drop_eq_nil_iff_le.mp hnil
    omega
  have hdropdots : ∀ p ∈ labels.drop (suffixIndex labels), ∀ x ∈ p, x ≠ '.' :=
    fun p hp => hdots p (List.drop_subset _ _ hp)
  have hdomdots : ∀ x ∈ dom, x ≠ '.' := hdots dom (List.get?_mem hget)
  have hsplit : splitOnDot d = dom :: labels.drop (suffixIndex labels) := by
    rw [hdeq, splitOnDot_append _ _ hdomdots,
      splitOnDot_joinDots _ hdropne hdropdots]
  have hdropeq : labels.drop (suffixIndex labels - 1) =
      dom :: labels.drop (suffixIndex labels) := by
    have h1 : suffixIndex labels - 1 < labels.length := by omega
    have h2 := List.drop_eq_get_cons h1
    have h3 : suffixIndex labels - 1 + 1 = suffixIndex labels := by omega
    rw [h3] at h2
    have h5 := List.get?_eq_get h1
    rw [hget] at h5
    injection h5 with h6
    rw [← h6] at h2
    exact h2
  have hnotpsl : pslChars.contains
      (joinDots (dom :: labels.drop (suffixIndex labels))) = false := by
    rw [← hdropeq]
    exact suffixIndex_not_psl labels (suffixIndex labels - 1) (by omega)
  have hpsl0 : pslChars.contains (joinDots (labels.drop (suffixIndex labels))) = true :=
    suffixIndex_psl labels hilen
  have hsi_drop : suffixIndex (labels.drop (suffixIndex labels)) = 0 := by
    obtain ⟨x, t, hxt⟩ := List.exists_cons_of_ne_nil hdropne
    rw [hxt] at hpsl0 ⊢
    unfold suffixIndex
    rw [if_pos hpsl0]
  have hsi_new : suffixIndex (dom :: labels.drop (suffixIndex labels)) = 1 := by
    conv_lhs => unfold suffixIndex
    rw [if_neg (by rw [hnotpsl]; exact fun hcc => Bool.noConfusion hcc)]
    rw [hsi_drop]
  rw [hsplit]
  unfold assembleDomain
  dsimp only
  rw [hsi_new]
  rw [if_neg (by decide : ¬ (1 : Nat) = 0)]
  rw [if_neg (by
    rw [List.length_cons]
    have := List.length_pos.mpr hdropne
    omega)]
  show (match (dom :: labels.drop (suffixIndex labels)).get? 0 with
    | none => none
    | some dm => if dm = [] then none
        else some (dm ++ '.' :: joinDots ((dom :: labels.drop (suffixIndex labels)).drop 1))) =
    some d
  rw [show (dom :: labels.drop (suffixIndex labels)).get? 0 = some dom from rfl]
  dsimp only
  rw [if_neg hdomne]
  rw [show (dom :: labels.drop (suffixIndex labels)).drop 1 =
    labels.drop (suffixIndex labels) from rfl]
  rw [hdeq]

theorem extract_domain_idem (u d : String) (h : extract_domain u = Except.ok d)
    (hws : ∀ x ∈ d.data, x.isWhitespace = false) :
    extract_domain d = Except.ok d := by
  unfold extract_domain at h
  dsimp only at h
  generalize hU : (if startsWithL u.data "http://".data || startsWithL u.data "https://".data
    then u.data else "https://".data ++ u.data) = U at h
  cases hassem : assembleDomain (splitOnDot (hostOf U)) with
  | none =>
    rw [hassem] at h
    exact absurd h (by simp)
  | some dd =>
    rw [hassem] at h
    dsimp only at h
    have hdd : d.data = dd := by
      simp only [Except.ok.injEq] at h
      subst h
      rfl
    have hdots : ∀ p ∈ splitOnDot (hostOf U), ∀ x ∈ p, x ≠ '.' :=
      fun p hp => splitOnDot_no_dot (hostOf U) p hp
    have hchars : ∀ p ∈ splitOnDot (hostOf U), ∀ x ∈ p, x ∈ hostOf U :=
      fun p hp => splitOnDot_chars (hostOf U) p hp
    obtain ⟨hi0, hilen, dom, hget, hdomne, hdeq⟩ := assembleDomain_some hassem
    have hdmem : ∀ x ∈ d.data, x = '.' ∨ x ∈ hostOf U := by
      intro x hx
      rw [hdd, hdeq] at hx
      rcases List.mem_append.mp hx with h1 | h1
      · exact Or.inr (hchars dom (List.get?_mem hget) x h1)
      · rcases List.mem_cons.mp h1 with h2 | h2
        · exact Or.inl h2
        · rcases joinDots_chars _ x h2 with h3 | ⟨p, hp, hxp⟩
          · exact Or.inl h3
          · exact Or.inr (hchars p (List.drop_subset _ _ hp) x hxp)
    have hdfacts : ∀ x ∈ d.data,
        lowerChar x = x ∧ x ≠ '/' ∧ x ≠ '?' ∧ x ≠ '#' ∧ x ≠ ':' ∧ x ≠ '@' := by
      intro x hx
      rcases hdmem x hx with h1 | h1
      · subst h1
        exact ⟨by decide, by decide, by decide, by decide, by decide, by decide⟩
      · exact hostOf_mem U x h1
    have hsufpsl := suffixIndex_psl (splitOnDot (hostOf U)) hilen
    have hsufmem := List.mem_of_elem_eq_true hsufpsl
    have hsufne := psl_entries _ hsufmem
    have hsufrevne : (joinDots ((splitOnDot (hostOf U)).drop
        (suffixIndex (splitOnDot (hostOf U))))).reverse ≠ [] := by
      intro hnil
      rw [List.reverse_eq_nil_iff] at hnil
      exact hsufne.1 hnil
    have hlast : d.data.reverse.head? ≠ some '.' := by
      rw [hdd, hdeq, List.reverse_append, List.reverse_cons, List.append_assoc]
      rw [List.head?_append_of_ne_nil _ hsufrevne]
      exact hsufne.2
    have hnoslash : '/' ∉ d.data := fun hx => (hdfacts '/' hx).2.1 rfl
    have hs1 : startsWithL d.data "http://".data = false := by
      cases hsw : startsWithL d.data "http://".data
      · rfl
      · exact absurd (startsWithL_chars d.data "http://".data hsw '/' (by decide)) hnoslash
    have hs2 : startsWithL d.data "https://".data = false := by
      cases hsw : startsWithL d.data "https://".data
      · rfl
      · exact absurd (startsWithL_chars d.data "https://".data hsw '/' (by decide)) hnoslash
    have hmaplower : d.data.map lowerChar = d.data :=
      (List.map_congr_left (fun x hx => (hdfacts x hx).1)).trans (List.map_id _)
    have hhost : hostOf ("https://".data ++ d.data) = d.data := by
      unfold hostOf
      rw [schemelessUrl_https d.data hnoslash]
      rw [takeUntil_self '/' d.data (fun x hx => (hdfacts x hx).2.1)]
      rw [takeUntil_self '?' d.data (fun x hx => (hdfacts x hx).2.2.1)]
      rw [takeUntil_self '#' d.data (fun x hx => (hdfacts x hx).2.2.2.1)]
      rw [afterLastAt_self d.data (fun x hx => (hdfacts x hx).2.2.2.2.2)]
      rw [takeUntil_self ':' d.data (fun x hx => (hdfacts x hx).2.2.2.2.1)]
      rw [trimWs_self d.data hws]
      rw [rstripDots_self d.data hlast]
      exact hmaplower
    have hround : assembleDomain (splitOnDot d.data) = some d.data := by
      rw [hdd]
      exact assemble_roundtrip _ dd hdots hassem
    unfold extract_domain
    dsimp only
    rw [hs1, hs2]
    rw [if_neg (by decide : ¬ (false || false) = true)]
    rw [hhost, hround]

/-- C7 counterexample: the scheme check of extract_domain is
case-sensitive, so the uppercase-scheme URL gets a second https scheme
prepended; the lenient netloc isolation then yields the single-label
host HTTPS, which has no public suffix, and extract_domain raises its
ValueError instead of returning example.com as the claim asserts. -/
theorem claim_C7_counterexample :
    extract_domain "HTTPS://Example.COM/path" =
      Except.error "Error extracting domain from HTTPS://Example.COM/path" ∧
    extract_domain "example.com" = Except.ok "example.com" ∧
    extract_domain "HTTPS://Example.COM/path" ≠ Except.ok "example.com" := by
  refine ⟨by rfl, by rfl, ?_⟩
  intro hcontra
  have h1 : extract_domain "HTTPS://Example.COM/path" =
      Except.error "Error extracting domain from HTTPS://Example.COM/path" := by rfl
  rw [h1] at hcontra
  exact Except.noConfusion hcontra

/-- C7 (amended): domain normalization is idempotent on its own
whitespace-free outputs (for every u and d with extract_domain u = ok d
and no whitespace character in d, extract_domain d = ok d), and
extract_domain of example.com is example.com; but the mixed-case example
HTTPS colon slash slash Example.COM slash path raises the extraction
error, because the scheme test is case-sensitive. -/
theorem claim_C7_normalize_amended :
    (∀ u d : String, extract_domain u = Except.ok d →
      (∀ x ∈ d.data, x.isWhitespace = false) → extract_domain d = Except.ok d) ∧
    extract_domain "example.com" = Except.ok "example.com" ∧
    extract_domain "HTTPS://Example.COM/path" =
      Except.error "Error extracting domain from HTTPS://Example.COM/path" := by
  exact ⟨extract_domain_idem, by rfl, by rfl⟩

/-- C7 witness: idempotence applied to the concrete normalized output of
a messy URL. -/
theorem claim_C7_witness :
    extract_domain "https://News.Example.COM/jobs?x=1" = Except.ok "example.com" ∧
    (∀ x ∈ ("example.com" : String).data, x.isWhitespace = false) ∧
    extract_domain "example.com" = Except.ok "example.com" :=
  ⟨by rfl, by decide,
    claim_C7_normalize_amended.1 "https://News.Example.COM/jobs?x=1" "example.com"
      (by rfl) (by decide)⟩
